import Mathlib

/-!
# Verification of the compgraph streaming engine

A shallow embedding of the `compgraph` library (`src/compgraph/operations.py`,
`src/compgraph/graph.py`).  Rows are association lists from field names to
values of a type `V`; every Python generator is modelled by the finite list of
rows it yields.  Python raises `KeyError` when a row lacks a named field; the
embedding totalises those reads with `Option.getD default` — every theorem
below is stated for inputs on which the two agree.
-/

namespace Compgraph

/-- A table row: Python's `dict[str, Any]` with its insertion order.
Values are drawn from an arbitrary type `V`. -/
abbrev Row (V : Type) := List (String × V)

namespace Row

/-- `row[k]` as an `Option`: the value at the first occurrence of field `k`. -/
def find? {V : Type} : Row V → String → Option V
  | [], _ => none
  | (k', v) :: rest, k => if k' = k then some v else find? rest k

/-- `k in row`: Python dict membership. -/
def has {V : Type} (r : Row V) (k : String) : Bool :=
  (r.find? k).isSome

/-- `row[k] = v`: Python dict assignment.  An existing field keeps its
position and gets the new value; a new field is appended at the end. -/
def set {V : Type} : Row V → String → V → Row V
  | [], k, v => [(k, v)]
  | (k', v') :: rest, k, v =>
    if k' = k then (k, v) :: rest else (k', v') :: set rest k v

end Row

/-! ## Lexicographic comparison

Python compares the key lists produced by `lambda row: [row[key] for key in keys]`
with `==` and `<`; list `<` is lexicographic.  `lexLt lt` is that comparison for
an arbitrary strict element comparison `lt`. -/

/-- Python's lexicographic `<` on lists, given a strict comparison on elements. -/
def lexLt {α : Type} (lt : α → α → Bool) : List α → List α → Bool
  | [], [] => false
  | [], _ :: _ => true
  | _ :: _, [] => false
  | a :: as, b :: bs =>
    if lt a b then true else if lt b a then false else lexLt lt as bs

section LexLemmas

variable {α : Type}

/-- Shorthand for the three facts making a Bool comparison a strict total order. -/
def StrictCmp (lt : α → α → Bool) : Prop :=
  (∀ x y, lt x y = true → lt y x = false) ∧
  (∀ x y z, lt x y = true → lt y z = true → lt x z = true) ∧
  (∀ x y, lt x y = false → lt y x = false → x = y)

theorem StrictCmp.irrefl {lt : α → α → Bool} (hs : StrictCmp lt) (x : α) :
    lt x x = false := by
  cases h : lt x x with
  | false => rfl
  | true => exact absurd (hs.1 x x h) (by simp [h])

theorem lexLt_irrefl {lt : α → α → Bool} (hs : StrictCmp lt) (l : List α) :
    lexLt lt l l = false := by
  induction l with
  | nil => rfl
  | cons a as ih => simp [lexLt, hs.irrefl a, ih]

theorem lexLt_asymm {lt : α → α → Bool} (hs : StrictCmp lt) :
    ∀ l₁ l₂ : List α, lexLt lt l₁ l₂ = true → lexLt lt l₂ l₁ = false
  | [], [], h => by simpa [lexLt] using h
  | [], _ :: _, _ => by simp [lexLt]
  | _ :: _, [], h => by simpa [lexLt] using h
  | a :: as, b :: bs, h => by
    by_cases hab : lt a b = true
    · simp [lexLt, hs.1 a b hab, hab]
    · by_cases hba : lt b a = true
      · simp [lexLt, hab, hba] at h
      · have hrec := lexLt_asymm hs as bs (by
          simpa [lexLt, hab, hba] using h)
        simp [lexLt, hab, hba, hrec]

theorem lexLt_trans {lt : α → α → Bool} (hs : StrictCmp lt) :
    ∀ l₁ l₂ l₃ : List α,
      lexLt lt l₁ l₂ = true → lexLt lt l₂ l₃ = true → lexLt lt l₁ l₃ = true
  | [], [], _, h₁, _ => by simpa [lexLt] using h₁
  | [], _ :: _, [], _, h₂ => by simpa [lexLt] using h₂
  | [], _ :: _, _ :: _, _, _ => by simp [lexLt]
  | _ :: _, [], _, h₁, _ => by simpa [lexLt] using h₁
  | _ :: _, _ :: _, [], _, h₂ => by simpa [lexLt] using h₂
  | a :: as, b :: bs, c :: cs, h₁, h₂ => by
    by_cases hab : lt a b = true
    · by_cases hbc : lt b c = true
      · have hac := hs.2.1 a b c hab hbc
        simp [lexLt, hac]
      · by_cases hcb : lt c b = true
        · simp [lexLt, hbc, hcb] at h₂
        · have hbceq : b = c := hs.2.2 b c (by simpa using hbc) (by simpa using hcb)
          subst hbceq
          simp [lexLt, hab]
    · by_cases hba : lt b a = true
      · simp [lexLt, hab, hba] at h₁
      · have habeq : a = b := hs.2.2 a b (by simpa using hab) (by simpa using hba)
        subst habeq
        by_cases hac : lt a c = true
        · simp [lexLt, hac]
        · by_cases hca : lt c a = true
          · simp [lexLt, hac, hca] at h₂
          · have h₁' : lexLt lt as bs = true := by
              simpa [lexLt, hs.irrefl a] using h₁
            have h₂' : lexLt lt bs cs = true := by
              simpa [lexLt, hac, hca] using h₂
            simp [lexLt, hac, hca, lexLt_trans hs as bs cs h₁' h₂']

theorem lexLt_connex {lt : α → α → Bool} (hs : StrictCmp lt) :
    ∀ l₁ l₂ : List α,
      lexLt lt l₁ l₂ = false → lexLt lt l₂ l₁ = false → l₁ = l₂
  | [], [], _, _ => rfl
  | [], _ :: _, h₁, _ => by simp [lexLt] at h₁
  | _ :: _, [], _, h₂ => by simp [lexLt] at h₂
  | a :: as, b :: bs, h₁, h₂ => by
    by_cases hab : lt a b = true
    · simp [lexLt, hab] at h₁
    · by_cases hba : lt b a = true
      · simp [lexLt, hab, hba] at h₂
      · have habeq : a = b := hs.2.2 a b (by simpa using hab) (by simpa using hba)
        have h₁' : lexLt lt as bs = false := by simpa [lexLt, hab, hba] using h₁
        have h₂' : lexLt lt bs as = false := by simpa [lexLt, hab, hba] using h₂
        rw [habeq, lexLt_connex hs as bs h₁' h₂']

end LexLemmas

/-! ## Key extraction -/

/-- Python's `<` on values of the (linearly ordered) value type. -/
def vLt {V : Type} [LinearOrder V] (x y : V) : Bool := decide (x < y)

/-- Python's `<` on `(field name, value)` pairs: lexicographic on the pair. -/
def pairLt {V : Type} [LinearOrder V] (a b : String × V) : Bool :=
  if a.1 < b.1 then true else if b.1 < a.1 then false else decide (a.2 < b.2)

theorem vLt_strict {V : Type} [LinearOrder V] : StrictCmp (vLt (V := V)) := by
  refine ⟨?_, ?_, ?_⟩
  · intro x y h
    simp only [vLt, decide_eq_true_eq] at h
    simp [vLt, le_of_lt h]
  · intro x y z h₁ h₂
    simp only [vLt, decide_eq_true_eq] at h₁ h₂ ⊢
    exact lt_trans h₁ h₂
  · intro x y h₁ h₂
    simp only [vLt, decide_eq_false_iff_not, not_lt] at h₁ h₂
    exact le_antisymm h₂ h₁

theorem pairLt_strict {V : Type} [LinearOrder V] : StrictCmp (pairLt (V := V)) := by
  refine ⟨?_, ?_, ?_⟩
  · rintro ⟨k₁, v₁⟩ ⟨k₂, v₂⟩ h
    by_cases hk : k₁ < k₂
    · simp [pairLt, hk, asymm hk, not_lt_of_lt hk]
    · by_cases hk' : k₂ < k₁
      · simp [pairLt, hk, hk'] at h
      · have hv : v₁ < v₂ := by simpa [pairLt, hk, hk'] using h
        simp [pairLt, hk, hk', asymm hv]
  · rintro ⟨k₁, v₁⟩ ⟨k₂, v₂⟩ ⟨k₃, v₃⟩ h₁ h₂
    by_cases h12 : k₁ < k₂
    · by_cases h23 : k₂ < k₃
      · simp [pairLt, lt_trans h12 h23]
      · by_cases h32 : k₃ < k₂
        · simp [pairLt, h23, h32] at h₂
        · have : k₂ = k₃ := le_antisymm (not_lt.mp h32) (not_lt.mp h23)
          subst this
          simp [pairLt, h12]
    · by_cases h21 : k₂ < k₁
      · simp [pairLt, h12, h21] at h₁
      · have : k₁ = k₂ := le_antisymm (not_lt.mp h21) (not_lt.mp h12)
        subst this
        have hv12 : v₁ < v₂ := by simpa [pairLt, h12, h21] using h₁
        by_cases h13 : k₁ < k₃
        · simp [pairLt, h13]
        · by_cases h31 : k₃ < k₁
          · simp [pairLt, h13, h31] at h₂
          · have hv23 : v₂ < v₃ := by simpa [pairLt, h13, h31] using h₂
            simp [pairLt, h13, h31, lt_trans hv12 hv23]
  · rintro ⟨k₁, v₁⟩ ⟨k₂, v₂⟩ h₁ h₂
    by_cases h12 : k₁ < k₂
    · simp [pairLt, h12] at h₁
    · by_cases h21 : k₂ < k₁
      · simp [pairLt, h12, h21] at h₂
      · have hk : k₁ = k₂ := le_antisymm (not_lt.mp h21) (not_lt.mp h12)
        have hv₁ : ¬ v₁ < v₂ := by simpa [pairLt, h12, h21] using h₁
        have hv₂ : ¬ v₂ < v₁ := by simpa [pairLt, h12, h21] using h₂
        have hv : v₁ = v₂ := le_antisymm (not_lt.mp hv₂) (not_lt.mp hv₁)
        simp [hk, hv]

/-- The key of a row under a key tuple: `[row[key] for key in keys]`.
Python raises `KeyError` on a missing field; the embedding totalises the read
with `default` (the theorems only consider rows carrying their key fields, or
empty key tuples, where both agree). -/
def keyOf {V : Type} [Inhabited V] (keys : List String) (r : Row V) : List V :=
  keys.map (fun k => (r.find? k).getD default)

/-- Python's `<` on two rows' key lists. -/
def keyLt {V : Type} [LinearOrder V] (ka kb : List V) : Bool := lexLt vLt ka kb

/-- `r` precedes `s` in ascending key order (non-strictly): the sortedness
assumption made by `Reduce` and `Join` on their inputs. -/
def keyLe {V : Type} [LinearOrder V] [Inhabited V] (keys : List String)
    (r s : Row V) : Prop :=
  keyLt (keyOf keys r) (keyOf keys s) = true ∨ keyOf keys r = keyOf keys s

instance {V : Type} [LinearOrder V] [Inhabited V] (keys : List String)
    (r s : Row V) : Decidable (keyLe keys r s) :=
  inferInstanceAs (Decidable
    (keyLt (keyOf keys r) (keyOf keys s) = true ∨ keyOf keys r = keyOf keys s))

theorem keyLt_strict {V : Type} [LinearOrder V] :
    StrictCmp (keyLt (V := V)) :=
  ⟨lexLt_asymm vLt_strict, lexLt_trans vLt_strict, lexLt_connex vLt_strict⟩

/-! ## Grouping: `itertools.groupby`

`groupby(rows, key=f)` partitions a stream into maximal runs of adjacent
elements whose keys are equal, yielding `(key, run)` pairs. -/

/-- The list of `(key, maximal run)` pairs produced by `itertools.groupby`. -/
def groupRuns {α K : Type} [DecidableEq K] (f : α → K) : List α → List (K × List α)
  | [] => []
  | a :: rest =>
    match groupRuns f rest with
    | [] => [(f a, [a])]
    | (k, run) :: gs =>
      if f a = k then (f a, a :: run) :: gs else (f a, [a]) :: (k, run) :: gs

section GroupRuns

variable {α K : Type} [DecidableEq K] (f : α → K)

theorem groupRuns_cons (a : α) (l : List α) :
    groupRuns f (a :: l) =
      match groupRuns f l with
      | [] => [(f a, [a])]
      | (k, run) :: gs =>
        if f a = k then (f a, a :: run) :: gs else (f a, [a]) :: (k, run) :: gs := rfl

theorem groupRuns_cons_head (a : α) (l : List α) :
    ∃ run gs, groupRuns f (a :: l) = (f a, run) :: gs ∧ a ∈ run := by
  cases h : groupRuns f l with
  | nil => exact ⟨[a], [], by simp [groupRuns, h], by simp⟩
  | cons g gs =>
    obtain ⟨k, run⟩ := g
    by_cases hk : f a = k
    · exact ⟨a :: run, gs, by simp [groupRuns, h, hk], by simp⟩
    · exact ⟨[a], (k, run) :: gs, by simp [groupRuns, h, hk], by simp⟩

theorem groupRuns_flatten : ∀ l : List α,
    ((groupRuns f l).map Prod.snd).flatten = l
  | [] => rfl
  | a :: rest => by
    have ih := groupRuns_flatten rest
    cases h : groupRuns f rest with
    | nil =>
      rw [h] at ih
      simp only [List.map_nil, List.flatten_nil] at ih
      simp [groupRuns, h, ← ih]
    | cons g gs =>
      obtain ⟨k, run⟩ := g
      rw [h] at ih
      by_cases hk : f a = k
      · simp only [groupRuns, h, if_pos hk]
        simpa using ih
      · simp only [groupRuns, h, if_neg hk]
        simpa using ih

theorem groupRuns_mem : ∀ l : List α, ∀ g ∈ groupRuns f l,
    g.2 ≠ [] ∧ ∀ x ∈ g.2, f x = g.1
  | [] => by simp [groupRuns]
  | a :: rest => by
    intro g hg
    have ih := groupRuns_mem rest
    cases h : groupRuns f rest with
    | nil =>
      simp only [groupRuns, h] at hg
      simp only [List.mem_singleton] at hg
      subst hg
      simp
    | cons g' gs =>
      obtain ⟨k, run⟩ := g'
      simp only [h] at ih
      by_cases hk : f a = k
      · simp only [groupRuns, h, if_pos hk] at hg
        rcases List.mem_cons.mp hg with heq | htail
        · subst heq
          refine ⟨by simp, ?_⟩
          intro x hx
          rcases List.mem_cons.mp hx with rfl | hx'
          · rfl
          · have hfx := (ih (k, run) (by simp)).2 x hx'
            simp only at hfx ⊢
            rw [hfx, hk]
        · exact ih g (by simp [htail])
      · simp only [groupRuns, h, if_neg hk] at hg
        rcases List.mem_cons.mp hg with heq | htail
        · subst heq
          exact ⟨by simp, by simp⟩
        · exact ih g htail

theorem groupRuns_adj_ne : ∀ l : List α,
    List.Chain' (fun g h : K × List α => g.1 ≠ h.1) (groupRuns f l)
  | [] => by simp [groupRuns]
  | a :: rest => by
    have ih := groupRuns_adj_ne rest
    cases h : groupRuns f rest with
    | nil => simp [groupRuns, h]
    | cons g' gs =>
      obtain ⟨k, run⟩ := g'
      rw [h] at ih
      by_cases hk : f a = k
      · simp only [groupRuns, h, if_pos hk, hk]
        rcases List.chain'_cons'.mp ih with ⟨hhead, htail⟩
        exact List.chain'_cons'.mpr ⟨fun b hb => hhead b hb, htail⟩
      · simp only [groupRuns, h, if_neg hk]
        exact List.Chain'.cons hk ih

/-- A nonempty list's group decomposition starts with the key of its head. -/
theorem groupRuns_head_key (a : α) (l : List α) (g : K × List α) (gs : List (K × List α))
    (h : groupRuns f (a :: l) = g :: gs) : g.1 = f a := by
  obtain ⟨run, gs', heq, _⟩ := groupRuns_cons_head f a l
  rw [heq] at h
  cases h
  rfl

/-- If the input is sorted non-decreasingly under `f` (w.r.t. a strict total
comparison `ltK`), the group keys of `groupRuns` are strictly increasing. -/
theorem groupRuns_sorted (ltK : K → K → Bool) (hs : StrictCmp ltK) :
    ∀ l : List α,
      List.Chain' (fun r s => ltK (f r) (f s) = true ∨ f r = f s) l →
      List.Chain' (fun g h : K × List α => ltK g.1 h.1 = true) (groupRuns f l)
  | [] => by simp [groupRuns]
  | [a] => by simp [groupRuns]
  | a :: b :: rest => by
    intro hchain
    rcases List.chain'_cons.mp hchain with ⟨hab, htail⟩
    have ih := groupRuns_sorted ltK hs (b :: rest) htail
    obtain ⟨run, gs, heq, _⟩ := groupRuns_cons_head f b rest
    rw [heq] at ih
    have hgr : groupRuns f (a :: b :: rest) =
        if f a = f b then (f a, a :: run) :: gs
        else (f a, [a]) :: (f b, run) :: gs := by
      rw [groupRuns_cons f a (b :: rest), heq]
    by_cases hk : f a = f b
    · rw [hgr, if_pos hk]
      rcases List.chain'_cons'.mp ih with ⟨hhead, htail'⟩
      refine List.chain'_cons'.mpr ⟨fun g hg => ?_, htail'⟩
      simp only [hk]
      exact hhead g hg
    · have hlt : ltK (f a) (f b) = true := by
        rcases hab with h | h
        · exact h
        · exact absurd h hk
      rw [hgr, if_neg hk]
      exact List.Chain'.cons hlt ih

end GroupRuns

/-! ## Row merging: `Joiner.get_ans`

`Joiner.get_ans(row_a, row_b, keys)` builds the merged row of a matched pair:

    ans = {key: row_a[key] for key in keys}
    ans.update({key + suffix_a if key in row_b else key: value
                for key, value in row_a.items() if key not in keys})
    ans.update({key + suffix_b if key in row_a else key: value
                for key, value in row_b.items() if key not in keys})

A dict comprehension followed by `dict.update` is, field by field in iteration
order, exactly a sequence of dict assignments. -/

/-- `acc.update(entries)`: assign every entry of `entries` into `acc` in order. -/
def updateRow {V : Type} (acc : Row V) (entries : List (String × V)) : Row V :=
  entries.foldl (fun acc kv => acc.set kv.1 kv.2) acc

/-- The non-key items of one side, each renamed with `suffix` exactly when the
`other` side also carries a field of that name. -/
def renameSide {V : Type} (suffix : String) (other : Row V) (keys : List String)
    (r : Row V) : List (String × V) :=
  (r.filter (fun kv => ! keys.contains kv.1)).map
    (fun kv => (if other.has kv.1 then kv.1 ++ suffix else kv.1, kv.2))

/-- The key fields of the merged row, taken from the left row:
`{key: row_a[key] for key in keys}`. -/
def keyEntries {V : Type} [Inhabited V] (keys : List String) (a : Row V) :
    List (String × V) :=
  keys.map (fun k => (k, (a.find? k).getD default))

/-- `Joiner.get_ans`: the merged row of a matched pair `(row_a, row_b)`. -/
def get_ans {V : Type} [Inhabited V] (sa sb : String) (keys : List String)
    (a b : Row V) : Row V :=
  updateRow (updateRow (updateRow [] (keyEntries keys a)) (renameSide sa b keys a))
    (renameSide sb a keys b)

/-! ## Join: `Join.__call__` and the four joiner strategies -/

/-- The four joiner classes of `operations.py`. -/
inductive Strategy : Type
  | inner
  | left
  | right
  | outer
deriving DecidableEq

/-- `isinstance(self.joiner, LeftJoiner | OuterJoiner)`. -/
def admitsLeft : Strategy → Bool
  | .left => true
  | .outer => true
  | _ => false

/-- `isinstance(self.joiner, RightJoiner | OuterJoiner)`. -/
def admitsRight : Strategy → Bool
  | .right => true
  | .outer => true
  | _ => false

/-- The rows a joiner emits for one pair of same-key groups
(`InnerJoiner.__call__`, `OuterJoiner.__call__`, `LeftJoiner.__call__`,
`RightJoiner.__call__`).  The Left/Right/Outer strategies pass an empty-group
side through unchanged; otherwise every strategy emits the Cartesian product
of the two groups merged by `get_ans` (RightJoiner iterates the right group
in its outer loop). -/
def joinerEmit {V : Type} [Inhabited V] (strat : Strategy) (sa sb : String)
    (keys : List String) (ga gb : List (Row V)) : List (Row V) :=
  match strat with
  | .inner => ga.flatMap (fun a => gb.map (fun b => get_ans sa sb keys a b))
  | .outer =>
    if gb.isEmpty then ga
    else if ga.isEmpty then gb
    else ga.flatMap (fun a => gb.map (fun b => get_ans sa sb keys a b))
  | .left =>
    if gb.isEmpty then ga
    else ga.flatMap (fun a => gb.map (fun b => get_ans sa sb keys a b))
  | .right =>
    if ga.isEmpty then gb
    else gb.flatMap (fun b => ga.map (fun a => get_ans sa sb keys a b))

/-- The merge loop of `Join.__call__` over the two grouped streams: equal keys
invoke the joiner on both groups and advance both sides; otherwise the side
with the smaller key is emitted as unmatched (when the strategy admits it) and
advanced.  The two trailing `while` loops drain whichever side remains. -/
def joinLoop {V : Type} [LinearOrder V] [Inhabited V] (strat : Strategy)
    (sa sb : String) (keys : List String) :
    List (List V × List (Row V)) → List (List V × List (Row V)) → List (Row V)
  | [], [] => []
  | (_, ga) :: ra, [] =>
    (if admitsLeft strat then joinerEmit strat sa sb keys ga [] else []) ++
      joinLoop strat sa sb keys ra []
  | [], (_, gb) :: rb =>
    (if admitsRight strat then joinerEmit strat sa sb keys [] gb else []) ++
      joinLoop strat sa sb keys [] rb
  | (ka, ga) :: ra, (kb, gb) :: rb =>
    if ka = kb then
      joinerEmit strat sa sb keys ga gb ++ joinLoop strat sa sb keys ra rb
    else if keyLt ka kb then
      (if admitsLeft strat then joinerEmit strat sa sb keys ga [] else []) ++
        joinLoop strat sa sb keys ra ((kb, gb) :: rb)
    else
      (if admitsRight strat then joinerEmit strat sa sb keys [] gb else []) ++
        joinLoop strat sa sb keys ((ka, ga) :: ra) rb
termination_by gs hs => gs.length + hs.length

/-- `Join.__call__`: group both sorted input streams by the key tuple with
`itertools.groupby` and run the merge loop. -/
def joinCall {V : Type} [LinearOrder V] [Inhabited V] (strat : Strategy)
    (sa sb : String) (keys : List String) (rowsA rowsB : List (Row V)) :
    List (Row V) :=
  joinLoop strat sa sb keys (groupRuns (keyOf keys) rowsA)
    (groupRuns (keyOf keys) rowsB)

/-- Find the group with the given key in a grouped stream. -/
def lookupKey {K G : Type} [DecidableEq K] (k : K) : List (K × G) → Option G
  | [] => none
  | (k', g) :: rest => if k' = k then some g else lookupKey k rest

/-- The rows of the left grouped stream whose key has no counterpart on the
right. -/
def unmatchedLeft {K : Type} {G : Type} [DecidableEq K]
    (gs hs : List (K × List G)) : List G :=
  (gs.filter (fun g => (lookupKey g.1 hs).isNone)).flatMap Prod.snd

/-- The rows of the right grouped stream whose key has no counterpart on the
left. -/
def unmatchedRight {K : Type} {G : Type} [DecidableEq K]
    (gs hs : List (K × List G)) : List G :=
  (hs.filter (fun h => (lookupKey h.1 gs).isNone)).flatMap Prod.snd

/-- Written from the spec's words, for comparison with `joinCall .inner`:
"`inner_join(A,B,K)` yields the Cartesian product per key of `A` and `B`" —
for each key group of `A` whose key also occurs in `B`, every pair of rows of
the two groups merged by the collision rule; keys present on only one side
contribute nothing. -/
def innerJoinSpec {V : Type} [LinearOrder V] [Inhabited V] (sa sb : String)
    (keys : List String) (rowsA rowsB : List (Row V)) : List (Row V) :=
  (groupRuns (keyOf keys) rowsA).flatMap (fun g =>
    match lookupKey g.1 (groupRuns (keyOf keys) rowsB) with
    | some gb => g.2.flatMap (fun a => gb.map (fun b => get_ans sa sb keys a b))
    | none => [])

section JoinLemmas

variable {V : Type} [LinearOrder V] [Inhabited V] (sa sb : String) (keys : List String)

theorem lookupKey_eq_none {K G : Type} [DecidableEq K] (k : K) :
    ∀ hs : List (K × G), (∀ e ∈ hs, e.1 ≠ k) → lookupKey k hs = none
  | [], _ => rfl
  | (k', g) :: rest, h => by
    have hk : k' ≠ k := h (k', g) (by simp)
    simp only [lookupKey, if_neg hk]
    exact lookupKey_eq_none k rest (fun e he => h e (by simp [he]))

/-- In a strictly key-sorted grouped stream every key after the head is
strictly above the head key. -/
theorem strictSorted_rest {K G : Type} (ltK : K → K → Bool) (hs : StrictCmp ltK)
    (g : K × G) (gs : List (K × G))
    (hchain : List.Chain' (fun x y : K × G => ltK x.1 y.1 = true) (g :: gs)) :
    ∀ e ∈ gs, ltK g.1 e.1 = true := by
  induction gs generalizing g with
  | nil => simp
  | cons g' gs' ih =>
    rcases List.chain'_cons.mp hchain with ⟨h₁, h₂⟩
    intro e he
    rcases List.mem_cons.mp he with rfl | he'
    · exact h₁
    · exact hs.2.1 _ _ _ h₁ (ih g' h₂ e he')

theorem joinLoop_inner_nil_left :
    ∀ hs : List (List V × List (Row V)), joinLoop .inner sa sb keys [] hs = []
  | [] => by simp [joinLoop]
  | (kb, gb) :: rb => by
    simp [joinLoop, admitsRight, joinLoop_inner_nil_left rb]

theorem joinLoop_inner_nil_right :
    ∀ gs : List (List V × List (Row V)), joinLoop .inner sa sb keys gs [] = []
  | [] => by simp [joinLoop]
  | (ka, ga) :: ra => by
    simp [joinLoop, admitsLeft, joinLoop_inner_nil_right ra]

theorem joinLoop_outer_nil_right :
    ∀ gs : List (List V × List (Row V)),
      joinLoop .outer sa sb keys gs [] = gs.flatMap Prod.snd
  | [] => by simp [joinLoop]
  | (ka, ga) :: ra => by
    simp [joinLoop, admitsLeft, joinerEmit, joinLoop_outer_nil_right ra]

theorem joinLoop_outer_nil_left :
    ∀ hs : List (List V × List (Row V)), (∀ h ∈ hs, h.2 ≠ []) →
      joinLoop .outer sa sb keys [] hs = hs.flatMap Prod.snd
  | [], _ => by simp [joinLoop]
  | (kb, gb) :: rb, hne => by
    have hgb : gb ≠ [] := hne (kb, gb) (by simp)
    have : gb.isEmpty = false := by simpa [List.isEmpty_iff] using hgb
    simp [joinLoop, admitsRight, joinerEmit, this,
      joinLoop_outer_nil_left rb (fun h hh => hne h (by simp [hh]))]

theorem flatMapCongr {α β : Type} {f g : α → List β} :
    ∀ l : List α, (∀ a ∈ l, f a = g a) → l.flatMap f = l.flatMap g
  | [], _ => rfl
  | a :: l, h => by
    simp only [List.flatMap_cons, h a (by simp)]
    rw [flatMapCongr l (fun x hx => h x (by simp [hx]))]

/-- Abbreviation for the key-strict sortedness of a grouped stream. -/
def GroupsSorted {V G : Type} [LinearOrder V] (gs : List (List V × G)) : Prop :=
  List.Chain' (fun g h => keyLt g.1 h.1 = true) gs

/-- On strictly key-sorted grouped streams, the merge loop of the inner join
computes, group by group of the left stream, the Cartesian product with the
same-key group of the right stream (and nothing when there is none). -/
theorem joinLoop_inner_eq :
    ∀ gs hs : List (List V × List (Row V)),
      GroupsSorted gs → GroupsSorted hs →
      joinLoop .inner sa sb keys gs hs =
        gs.flatMap (fun g =>
          match lookupKey g.1 hs with
          | some gb => g.2.flatMap (fun a => gb.map (fun b => get_ans sa sb keys a b))
          | none => [])
  | [], hs, _, _ => by
    simp [joinLoop_inner_nil_left]
  | (ka, ga) :: ra, [], _, _ => by
    simp [joinLoop_inner_nil_right, lookupKey]
  | (ka, ga) :: ra, (kb, gb) :: rb, hgs, hhs => by
    have hra : GroupsSorted ra := hgs.tail
    have hrb : GroupsSorted rb := hhs.tail
    have hraGt := strictSorted_rest keyLt keyLt_strict (ka, ga) ra hgs
    have hrbGt := strictSorted_rest keyLt keyLt_strict (kb, gb) rb hhs
    by_cases heq : ka = kb
    · subst heq
      have ihr := joinLoop_inner_eq ra rb hra hrb
      rw [joinLoop, if_pos rfl, ihr]
      have hcong : ∀ g ∈ ra,
          (match lookupKey g.1 rb with
           | some gb => g.2.flatMap (fun a => gb.map (fun b => get_ans sa sb keys a b))
           | none => ([] : List (Row V))) =
          (match lookupKey g.1 ((ka, gb) :: rb) with
           | some gb => g.2.flatMap (fun a => gb.map (fun b => get_ans sa sb keys a b))
           | none => []) := by
        intro g hg
        have hne : ka ≠ g.1 := by
          intro h
          have := hraGt g hg
          rw [← h] at this
          exact absurd this (by simp [keyLt_strict.irrefl ka])
        rw [lookupKey, if_neg hne]
      rw [flatMapCongr ra hcong]
      simp [joinerEmit, lookupKey]
    · by_cases hlt : keyLt ka kb = true
      · have ih := joinLoop_inner_eq ra ((kb, gb) :: rb) hra hhs
        rw [joinLoop, if_neg heq, if_pos hlt, ih]
        have hnone : lookupKey ka ((kb, gb) :: rb) = none := by
          apply lookupKey_eq_none
          intro e he
          rcases List.mem_cons.mp he with rfl | he'
          · exact fun h => heq h.symm
          · intro h
            have h1 := hrbGt e he'
            rw [h] at h1
            exact absurd hlt (by simp [keyLt_strict.1 _ _ h1])
        simp [admitsLeft, hnone]
      · have hgt : keyLt kb ka = true := by
          cases h : keyLt kb ka with
          | true => rfl
          | false =>
            exact absurd (lexLt_connex vLt_strict ka kb (by simpa using hlt) h)
              heq
        have ih := joinLoop_inner_eq ((ka, ga) :: ra) rb hgs hrb
        rw [joinLoop, if_neg heq, if_neg (by simp [hlt]), ih]
        have hcong : ∀ g ∈ (ka, ga) :: ra,
            (match lookupKey g.1 rb with
             | some gb => g.2.flatMap (fun a => gb.map (fun b => get_ans sa sb keys a b))
             | none => ([] : List (Row V))) =
            (match lookupKey g.1 ((kb, gb) :: rb) with
             | some gb => g.2.flatMap (fun a => gb.map (fun b => get_ans sa sb keys a b))
             | none => []) := by
          intro g hg
          have hne : kb ≠ g.1 := by
            rcases List.mem_cons.mp hg with rfl | hg'
            · intro h
              exact heq h.symm
            · intro h
              have h1 := hraGt g hg'
              rw [← h] at h1
              exact absurd h1 (by simp [keyLt_strict.1 _ _ hgt])
          rw [lookupKey, if_neg hne]
        rw [flatMapCongr ((ka, ga) :: ra) hcong]
        simp [admitsRight]
termination_by gs hs => gs.length + hs.length

theorem unmatchedLeft_congr {K G : Type} [DecidableEq K]
    {hs hs' : List (K × List G)} :
    ∀ gs : List (K × List G), (∀ g ∈ gs, lookupKey g.1 hs = lookupKey g.1 hs') →
      unmatchedLeft gs hs = unmatchedLeft gs hs' := by
  intro gs h
  unfold unmatchedLeft
  rw [List.filter_congr (fun g hg => by rw [h g hg])]

theorem unmatchedRight_congr {K G : Type} [DecidableEq K]
    {gs gs' : List (K × List G)} :
    ∀ hs : List (K × List G), (∀ e ∈ hs, lookupKey e.1 gs = lookupKey e.1 gs') →
      unmatchedRight gs hs = unmatchedRight gs' hs := by
  intro hs h
  unfold unmatchedRight
  rw [List.filter_congr (fun e he => by rw [h e he])]

theorem unmatchedLeft_nil_right {K G : Type} [DecidableEq K]
    (gs : List (K × List G)) : unmatchedLeft gs [] = gs.flatMap Prod.snd := by
  unfold unmatchedLeft
  have h : ∀ g ∈ gs, (lookupKey g.1 ([] : List (K × List G))).isNone =
      (fun _ : K × List G => true) g := by
    simp [lookupKey]
  rw [List.filter_congr h, List.filter_true]

theorem unmatchedRight_nil_left {K G : Type} [DecidableEq K]
    (hs : List (K × List G)) : unmatchedRight [] hs = hs.flatMap Prod.snd := by
  unfold unmatchedRight
  have h : ∀ g ∈ hs, (lookupKey g.1 ([] : List (K × List G))).isNone =
      (fun _ : K × List G => true) g := by
    simp [lookupKey]
  rw [List.filter_congr h, List.filter_true]

theorem unmatchedLeft_nil_left {K G : Type} [DecidableEq K]
    (hs : List (K × List G)) : unmatchedLeft [] hs = [] := rfl

theorem unmatchedRight_nil_right {K G : Type} [DecidableEq K]
    (gs : List (K × List G)) : unmatchedRight gs [] = [] := rfl

theorem unmatchedLeft_cons_matched {K G : Type} [DecidableEq K]
    (k : K) (g : List G) (ra hs : List (K × List G))
    (h : (lookupKey k hs).isSome) :
    unmatchedLeft ((k, g) :: ra) hs = unmatchedLeft ra hs := by
  unfold unmatchedLeft
  rw [List.filter_cons_of_neg]
  simp only [Option.isNone_iff_eq_none]
  intro hn
  rw [hn] at h
  simp at h

theorem unmatchedLeft_cons_unmatched {K G : Type} [DecidableEq K]
    (k : K) (g : List G) (ra hs : List (K × List G))
    (h : lookupKey k hs = none) :
    unmatchedLeft ((k, g) :: ra) hs = g ++ unmatchedLeft ra hs := by
  unfold unmatchedLeft
  rw [List.filter_cons_of_pos]
  · simp
  · simp [h]

theorem unmatchedRight_cons_matched {K G : Type} [DecidableEq K]
    (k : K) (g : List G) (gs rb : List (K × List G))
    (h : (lookupKey k gs).isSome) :
    unmatchedRight gs ((k, g) :: rb) = unmatchedRight gs rb := by
  unfold unmatchedRight
  rw [List.filter_cons_of_neg]
  simp only [Option.isNone_iff_eq_none]
  intro hn
  rw [hn] at h
  simp at h

theorem unmatchedRight_cons_unmatched {K G : Type} [DecidableEq K]
    (k : K) (g : List G) (gs rb : List (K × List G))
    (h : lookupKey k gs = none) :
    unmatchedRight gs ((k, g) :: rb) = g ++ unmatchedRight gs rb := by
  unfold unmatchedRight
  rw [List.filter_cons_of_pos]
  · simp
  · simp [h]

/-- `joinerEmit` of the outer strategy on two nonempty groups coincides with
the inner strategy's Cartesian product. -/
theorem joinerEmit_outer_eq_inner (ga gb : List (Row V))
    (ha : ga ≠ []) (hb : gb ≠ []) :
    joinerEmit .outer sa sb keys ga gb = joinerEmit .inner sa sb keys ga gb := by
  have ha' : ga.isEmpty = false := by simpa [List.isEmpty_iff] using ha
  have hb' : gb.isEmpty = false := by simpa [List.isEmpty_iff] using hb
  simp [joinerEmit, ha', hb']

/-- On strictly key-sorted grouped streams with nonempty groups, the outer
merge loop emits, up to order, the inner join's output plus the rows of all
unmatched groups of both sides. -/
theorem joinLoop_outer_perm :
    ∀ gs hs : List (List V × List (Row V)),
      GroupsSorted gs → GroupsSorted hs →
      (∀ g ∈ gs, g.2 ≠ []) → (∀ h ∈ hs, h.2 ≠ []) →
      (joinLoop .outer sa sb keys gs hs).Perm
        (joinLoop .inner sa sb keys gs hs ++ unmatchedLeft gs hs ++
          unmatchedRight gs hs)
  | [], hs, _, _, _, hne => by
    rw [joinLoop_outer_nil_left sa sb keys hs hne, joinLoop_inner_nil_left,
      unmatchedLeft_nil_left, unmatchedRight_nil_left]
    simp
  | (ka, ga) :: ra, [], _, _, _, _ => by
    rw [joinLoop_outer_nil_right, joinLoop_inner_nil_right,
      unmatchedLeft_nil_right, unmatchedRight_nil_right]
    simp
  | (ka, ga) :: ra, (kb, gb) :: rb, hgs, hhs, hneL, hneR => by
    have hra : GroupsSorted ra := hgs.tail
    have hrb : GroupsSorted rb := hhs.tail
    have hneL' : ∀ g ∈ ra, g.2 ≠ [] := fun g hg => hneL g (by simp [hg])
    have hneR' : ∀ h ∈ rb, h.2 ≠ [] := fun h hh => hneR h (by simp [hh])
    have hga : ga ≠ [] := hneL (ka, ga) (by simp)
    have hgb : gb ≠ [] := hneR (kb, gb) (by simp)
    have hraGt := strictSorted_rest keyLt keyLt_strict (ka, ga) ra hgs
    have hrbGt := strictSorted_rest keyLt keyLt_strict (kb, gb) rb hhs
    rw [← Multiset.coe_eq_coe]
    by_cases heq : ka = kb
    · subst heq
      have ih := joinLoop_outer_perm ra rb hra hrb hneL' hneR'
      have hul : unmatchedLeft ((ka, ga) :: ra) ((ka, gb) :: rb) =
          unmatchedLeft ra rb := by
        rw [unmatchedLeft_cons_matched ka ga ra ((ka, gb) :: rb)
          (by simp [lookupKey])]
        apply unmatchedLeft_congr
        intro g hg
        have hne : ka ≠ g.1 := by
          intro h
          have h1 := hraGt g hg
          rw [← h] at h1
          exact absurd h1 (by simp [keyLt_strict.irrefl ka])
        rw [lookupKey, if_neg hne]
      have hur : unmatchedRight ((ka, ga) :: ra) ((ka, gb) :: rb) =
          unmatchedRight ra rb := by
        rw [unmatchedRight_cons_matched ka gb ((ka, ga) :: ra) rb
          (by simp [lookupKey])]
        apply unmatchedRight_congr
        intro e he
        have hne : ka ≠ e.1 := by
          intro h
          have h1 := hrbGt e he
          rw [← h] at h1
          exact absurd h1 (by simp [keyLt_strict.irrefl ka])
        rw [lookupKey, if_neg hne]
      rw [joinLoop, if_pos rfl, hul, hur,
        joinerEmit_outer_eq_inner sa sb keys ga gb hga hgb]
      conv_rhs => rw [joinLoop, if_pos rfl]
      have ihm := Multiset.coe_eq_coe.mpr ih
      simp only [← Multiset.coe_add] at ihm ⊢
      rw [ihm]
      simp [add_assoc]
    · by_cases hlt : keyLt ka kb = true
      · have ih := joinLoop_outer_perm ra ((kb, gb) :: rb) hra hhs hneL' hneR
        have hnone : lookupKey ka ((kb, gb) :: rb) = none := by
          apply lookupKey_eq_none
          intro e he
          rcases List.mem_cons.mp he with rfl | he'
          · exact fun h => heq h.symm
          · intro h
            have h1 := hrbGt e he'
            rw [h] at h1
            exact absurd hlt (by simp [keyLt_strict.1 _ _ h1])
        have hul : unmatchedLeft ((ka, ga) :: ra) ((kb, gb) :: rb) =
            ga ++ unmatchedLeft ra ((kb, gb) :: rb) :=
          unmatchedLeft_cons_unmatched ka ga ra ((kb, gb) :: rb) hnone
        have hur : unmatchedRight ((ka, ga) :: ra) ((kb, gb) :: rb) =
            unmatchedRight ra ((kb, gb) :: rb) := by
          apply unmatchedRight_congr
          intro e he
          have hne : ka ≠ e.1 := by
            rcases List.mem_cons.mp he with rfl | he'
            · exact heq
            · intro h
              have h1 := hrbGt e he'
              rw [← h] at h1
              exact absurd hlt (by simp [keyLt_strict.1 _ _ h1])
          rw [lookupKey, if_neg hne]
        rw [joinLoop, if_neg heq, if_pos hlt, hul, hur]
        conv_rhs => rw [joinLoop, if_neg heq, if_pos hlt]
        have ihm := Multiset.coe_eq_coe.mpr ih
        simp only [← Multiset.coe_add, admitsLeft, if_pos, joinerEmit,
          List.isEmpty_nil, ite_true] at ihm ⊢
        rw [ihm]
        simp only [admitsLeft, admitsRight, Bool.false_eq_true, if_false,
          Multiset.coe_nil, add_zero, zero_add, add_assoc, add_comm, add_left_comm]
      · have hgt : keyLt kb ka = true := by
          cases h : keyLt kb ka with
          | true => rfl
          | false =>
            exact absurd (lexLt_connex vLt_strict ka kb (by simpa using hlt) h)
              heq
        have ih := joinLoop_outer_perm ((ka, ga) :: ra) rb hgs hrb hneL hneR'
        have hnone : lookupKey kb ((ka, ga) :: ra) = none := by
          apply lookupKey_eq_none
          intro e he
          rcases List.mem_cons.mp he with rfl | he'
          · exact fun h => heq h
          · intro h
            have h1 := hraGt e he'
            rw [h] at h1
            exact absurd h1 (by simp [keyLt_strict.1 _ _ hgt])
        have hul : unmatchedLeft ((ka, ga) :: ra) ((kb, gb) :: rb) =
            unmatchedLeft ((ka, ga) :: ra) rb := by
          apply unmatchedLeft_congr
          intro g hg
          have hne : kb ≠ g.1 := by
            rcases List.mem_cons.mp hg with rfl | hg'
            · exact fun h => heq h.symm
            · intro h
              have h1 := hraGt g hg'
              rw [← h] at h1
              exact absurd h1 (by simp [keyLt_strict.1 _ _ hgt])
          rw [lookupKey, if_neg hne]
        have hur : unmatchedRight ((ka, ga) :: ra) ((kb, gb) :: rb) =
            gb ++ unmatchedRight ((ka, ga) :: ra) rb :=
          unmatchedRight_cons_unmatched kb gb ((ka, ga) :: ra) rb hnone
        have hgb' : gb.isEmpty = false := by simpa [List.isEmpty_iff] using hgb
        rw [joinLoop, if_neg heq, if_neg (by simp [hlt]), hul, hur]
        conv_rhs => rw [joinLoop, if_neg heq, if_neg (by simp [hlt])]
        have ihm := Multiset.coe_eq_coe.mpr ih
        simp only [← Multiset.coe_add, admitsRight, if_pos, joinerEmit,
          List.isEmpty_nil, hgb', ite_true, ite_false, Bool.false_eq_true] at ihm ⊢
        rw [ihm]
        simp only [admitsLeft, admitsRight, Bool.false_eq_true, if_false,
          Multiset.coe_nil, add_zero, zero_add, add_assoc, add_comm, add_left_comm]
termination_by gs hs => gs.length + hs.length

end JoinLemmas

/-! ## The collision rule of `get_ans`, structurally -/

section GetAns

variable {V : Type} [Inhabited V]

theorem Row.find?_eq_none_iff (k : String) :
    ∀ r : Row V, r.find? k = none ↔ k ∉ r.map Prod.fst
  | [] => by simp [Row.find?]
  | (k', v) :: rest => by
    by_cases h : k' = k
    · subst h
      simp [Row.find?]
    · simp only [Row.find?, if_neg h, List.map_cons, List.mem_cons]
      rw [Row.find?_eq_none_iff k rest]
      constructor
      · intro hn hmem
        rcases hmem with heq | hmem'
        · exact h heq.symm
        · exact hn hmem'
      · intro hn hmem
        exact hn (Or.inr hmem)

theorem Row.has_eq_false_iff :
    ∀ (r : Row V) (k : String), r.has k = false ↔ k ∉ r.map Prod.fst
  | [], k => by simp [Row.has, Row.find?]
  | (k', v) :: rest, k => by
    by_cases h : k' = k
    · subst h
      simp [Row.has, Row.find?]
    · have hred : Row.has ((k', v) :: rest) k = Row.has rest k := by
        simp [Row.has, Row.find?, if_neg h]
      rw [hred, Row.has_eq_false_iff rest k]
      simp only [List.map_cons, List.mem_cons, not_or]
      constructor
      · intro hn
        exact ⟨fun hk => h hk.symm, hn⟩
      · intro hn
        exact hn.2

theorem Row.set_of_not_has (k : String) (v : V) :
    ∀ r : Row V, r.has k = false → r.set k v = r ++ [(k, v)]
  | [], _ => rfl
  | (k', v') :: rest, h => by
    have hk : k' ≠ k := by
      intro hk
      subst hk
      simp [Row.has, Row.find?] at h
    have hrest : Row.has rest k = false := by
      simpa [Row.has, Row.find?, if_neg hk] using h
    simp only [Row.set, if_neg hk, List.cons_append, List.cons.injEq, true_and]
    exact Row.set_of_not_has k v rest hrest

theorem updateRow_eq_append :
    ∀ (entries : List (String × V)) (acc : Row V),
      (∀ e ∈ entries, acc.has e.1 = false) →
      (entries.map Prod.fst).Nodup →
      updateRow acc entries = acc ++ entries
  | [], acc, _, _ => by simp [updateRow]
  | e :: rest, acc, hfresh, hnodup => by
    have hacc : acc.has e.1 = false := hfresh e (by simp)
    have hstep : acc.set e.1 e.2 = acc ++ [e] := Row.set_of_not_has e.1 e.2 acc hacc
    have hcons : e.1 ∉ rest.map Prod.fst ∧ (rest.map Prod.fst).Nodup :=
      List.nodup_cons.mp (by simpa only [List.map_cons] using hnodup)
    have hnamene : ∀ e' ∈ rest, e'.1 ≠ e.1 := by
      intro e' he' hname
      exact hcons.1 (hname ▸ List.mem_map_of_mem Prod.fst he')
    have hfresh' : ∀ e' ∈ rest, (acc ++ [e]).has e'.1 = false := by
      intro e' he'
      rw [Row.has_eq_false_iff]
      simp only [List.map_append, List.mem_append, List.map_cons, List.map_nil,
        List.mem_singleton]
      rintro (hmem | hmem)
      · exact absurd hmem ((Row.has_eq_false_iff acc e'.1).mp (hfresh e' (by simp [he'])))
      · exact hnamene e' he' hmem
    have hnodup' : (rest.map Prod.fst).Nodup := hcons.2
    show updateRow (acc.set e.1 e.2) rest = acc ++ e :: rest
    rw [hstep, updateRow_eq_append rest (acc ++ [e]) hfresh' hnodup']
    simp

/-- Under distinct output field names, the merged row of `get_ans` is exactly:
the key fields (with the left row's values), then the left row's non-key
fields (suffixed with `suffix_a` exactly when the right row also has the
field), then the right row's non-key fields (suffixed with `suffix_b` exactly
when the left row also has the field). -/
theorem get_ans_eq (sa sb : String) (keys : List String) (a b : Row V)
    (hnodup : ((keyEntries keys a ++ renameSide sa b keys a ++
      renameSide sb a keys b).map Prod.fst).Nodup) :
    get_ans sa sb keys a b =
      keyEntries keys a ++ renameSide sa b keys a ++ renameSide sb a keys b := by
  classical
  set e₁ := keyEntries keys a with he₁
  set e₂ := renameSide sa b keys a with he₂
  set e₃ := renameSide sb a keys b with he₃
  simp only [List.map_append, List.nodup_append] at hnodup
  obtain ⟨⟨h1, h2, h12⟩, h3, h123⟩ := hnodup
  have hu1 : updateRow [] e₁ = e₁ := by
    rw [updateRow_eq_append e₁ [] (by simp [Row.has, Row.find?]) h1]
    simp
  have hu2 : updateRow e₁ e₂ = e₁ ++ e₂ := by
    apply updateRow_eq_append e₂ e₁ _ h2
    intro e he
    rw [Row.has_eq_false_iff]
    exact fun hmem => h12 hmem (List.mem_map_of_mem Prod.fst he)
  have hu3 : updateRow (e₁ ++ e₂) e₃ = (e₁ ++ e₂) ++ e₃ := by
    apply updateRow_eq_append e₃ (e₁ ++ e₂) _ h3
    intro e he
    rw [Row.has_eq_false_iff]
    intro hmem
    rw [List.map_append] at hmem
    exact h123 hmem (List.mem_map_of_mem Prod.fst he)
  show updateRow (updateRow (updateRow [] e₁) e₂) e₃ = e₁ ++ e₂ ++ e₃
  rw [hu1, hu2, hu3]

end GetAns

end Compgraph

namespace Compgraph

/-! ## Claim C1: inner join is the per-key Cartesian product; outer join adds
the unmatched rows of both sides; the collision rule governs merged rows -/

/-- **C1.** For every pair of input streams sorted ascending by the key tuple,
the inner join emits, for each key present in both streams, exactly the
Cartesian product of the two equal-key groups merged pairwise by `get_ans`
(`innerJoinSpec`, written from the spec); the outer join emits that inner
result plus the unmatched rows of both sides (up to emission order); and a
merged row consists of the key fields once (left values), each shared non-key
field twice with the configured suffixes on the left and right copies, and
each one-sided non-key field unchanged. -/
theorem join_inner_cartesian_outer_unmatched_c1 {V : Type} [LinearOrder V]
    [Inhabited V] (sa sb : String) (keys : List String)
    (rowsA rowsB : List (Row V))
    (hA : List.Chain' (keyLe keys) rowsA) (hB : List.Chain' (keyLe keys) rowsB) :
    joinCall .inner sa sb keys rowsA rowsB = innerJoinSpec sa sb keys rowsA rowsB ∧
    (joinCall .outer sa sb keys rowsA rowsB).Perm
      (joinCall .inner sa sb keys rowsA rowsB ++
        unmatchedLeft (groupRuns (keyOf keys) rowsA) (groupRuns (keyOf keys) rowsB) ++
        unmatchedRight (groupRuns (keyOf keys) rowsA) (groupRuns (keyOf keys) rowsB)) ∧
    (∀ a b : Row V,
      ((keyEntries keys a ++ renameSide sa b keys a ++
        renameSide sb a keys b).map Prod.fst).Nodup →
      get_ans sa sb keys a b =
        keyEntries keys a ++ renameSide sa b keys a ++ renameSide sb a keys b) := by
  have hgsA : GroupsSorted (groupRuns (keyOf keys) rowsA) :=
    groupRuns_sorted (keyOf keys) keyLt keyLt_strict rowsA hA
  have hgsB : GroupsSorted (groupRuns (keyOf keys) rowsB) :=
    groupRuns_sorted (keyOf keys) keyLt keyLt_strict rowsB hB
  have hneA : ∀ g ∈ groupRuns (keyOf keys) rowsA, g.2 ≠ [] :=
    fun g hg => (groupRuns_mem (keyOf keys) rowsA g hg).1
  have hneB : ∀ g ∈ groupRuns (keyOf keys) rowsB, g.2 ≠ [] :=
    fun g hg => (groupRuns_mem (keyOf keys) rowsB g hg).1
  refine ⟨?_, ?_, ?_⟩
  · unfold joinCall innerJoinSpec
    exact joinLoop_inner_eq sa sb keys _ _ hgsA hgsB
  · unfold joinCall
    exact joinLoop_outer_perm sa sb keys _ _ hgsA hgsB hneA hneB
  · intro a b hnodup
    exact get_ans_eq sa sb keys a b hnodup

theorem join_inner_cartesian_outer_unmatched_c1_witness :
    (joinCall .inner "_1" "_2" ["k"]
        [[("k", (1 : Int)), ("v", 10)], [("k", 2), ("w", 20)]]
        [[("k", 2), ("v", 30)]] =
      innerJoinSpec "_1" "_2" ["k"]
        [[("k", (1 : Int)), ("v", 10)], [("k", 2), ("w", 20)]]
        [[("k", 2), ("v", 30)]]) ∧
    (joinCall .outer "_1" "_2" ["k"]
        [[("k", (1 : Int)), ("v", 10)], [("k", 2), ("w", 20)]]
        [[("k", 2), ("v", 30)]]).Perm
      (joinCall .inner "_1" "_2" ["k"]
          [[("k", (1 : Int)), ("v", 10)], [("k", 2), ("w", 20)]]
          [[("k", 2), ("v", 30)]] ++
        unmatchedLeft
          (groupRuns (keyOf ["k"])
            [[("k", (1 : Int)), ("v", 10)], [("k", 2), ("w", 20)]])
          (groupRuns (keyOf ["k"]) [[("k", 2), ("v", 30)]]) ++
        unmatchedRight
          (groupRuns (keyOf ["k"])
            [[("k", (1 : Int)), ("v", 10)], [("k", 2), ("w", 20)]])
          (groupRuns (keyOf ["k"]) [[("k", 2), ("v", 30)]])) ∧
    (∀ a b : Row Int,
      ((keyEntries ["k"] a ++ renameSide "_1" b ["k"] a ++
        renameSide "_2" a ["k"] b).map Prod.fst).Nodup →
      get_ans "_1" "_2" ["k"] a b =
        keyEntries ["k"] a ++ renameSide "_1" b ["k"] a ++
          renameSide "_2" a ["k"] b) :=
  join_inner_cartesian_outer_unmatched_c1 "_1" "_2" ["k"]
    [[("k", (1 : Int)), ("v", 10)], [("k", 2), ("w", 20)]]
    [[("k", 2), ("v", 30)]] (List.chain'_pair.mpr (by decide))
    (List.chain'_singleton _)

/-! ## Claim C5: unmatched groups pass through unchanged -/

/-- **C5.** A group with no matching key on the other side is emitted exactly
as received by the Left, Right and Outer strategies — the joiner's
unmatched-side branch returns the rows themselves, with no suffixing and no
field changes — while the Inner strategy emits nothing for such a group. -/
theorem unmatched_groups_passthrough_c5 {V : Type} [LinearOrder V] [Inhabited V]
    (sa sb : String) (keys : List String) (g : List (Row V)) (k : List V) :
    joinerEmit .left sa sb keys g [] = g ∧
    joinerEmit .outer sa sb keys g [] = g ∧
    joinerEmit .right sa sb keys [] g = g ∧
    joinerEmit .outer sa sb keys [] g = g ∧
    joinLoop .left sa sb keys [(k, g)] [] = g ∧
    joinLoop .outer sa sb keys [(k, g)] [] = g ∧
    joinLoop .right sa sb keys [] [(k, g)] = g ∧
    joinLoop .outer sa sb keys [] [(k, g)] = g ∧
    joinLoop .inner sa sb keys [(k, g)] [] = [] ∧
    joinLoop .inner sa sb keys [] [(k, g)] = [] := by
  cases g with
  | nil =>
    refine ⟨rfl, rfl, rfl, rfl, ?_, ?_, ?_, ?_, ?_, ?_⟩ <;>
      simp [joinLoop, joinerEmit, admitsLeft, admitsRight]
  | cons r rest =>
    refine ⟨?_, ?_, ?_, ?_, ?_, ?_, ?_, ?_, ?_, ?_⟩ <;>
      simp [joinLoop, joinerEmit, admitsLeft, admitsRight]

end Compgraph

namespace Compgraph

/-! ## External sort (claim C2)

`graph.py` imports `external_sort.ExternalSort`, but `external_sort.py` is not
part of the sources at hand; only its caller (`Graph.sort`) is.  The sort is
therefore modelled from the spec. -/

/-- Modelled from the spec: stable insertion of a row in front of the first
position whose key is not strictly smaller — the missing
`external_sort.ExternalSort` module's observable behaviour is specified as a
stable sort by the key tuple (spec §4.4); run generation, spilling and the
k-way merge are I/O strategy with no observable effect on the output. -/
def sortInsert {V : Type} [LinearOrder V] [Inhabited V] (keys : List String)
    (x : Row V) : List (Row V) → List (Row V)
  | [] => [x]
  | y :: ys =>
    if keyLt (keyOf keys y) (keyOf keys x) then y :: sortInsert keys x ys
    else x :: y :: ys

/-- Modelled from the spec: `ExternalSort(keys)` — a stable sort of the row
stream by the key tuple (spec §4.4: "the output is a permutation of the input
such that (a) key values are non-decreasing and (b) rows with equal keys
retain input order"). -/
def ExternalSort {V : Type} [LinearOrder V] [Inhabited V] (keys : List String)
    (rows : List (Row V)) : List (Row V) :=
  rows.foldr (sortInsert keys) []

section SortLemmas

variable {V : Type} [LinearOrder V] [Inhabited V] (keys : List String)

theorem sortInsert_perm (x : Row V) :
    ∀ l : List (Row V), (sortInsert keys x l).Perm (x :: l)
  | [] => List.Perm.refl _
  | y :: ys => by
    unfold sortInsert
    by_cases h : keyLt (keyOf keys y) (keyOf keys x) = true
    · rw [if_pos h]
      exact ((sortInsert_perm x ys).cons y).trans (List.Perm.swap x y ys)
    · rw [if_neg h]

theorem ExternalSort_perm :
    ∀ rows : List (Row V), (ExternalSort keys rows).Perm rows
  | [] => List.Perm.refl _
  | r :: rest => by
    show (sortInsert keys r (ExternalSort keys rest)).Perm (r :: rest)
    exact (sortInsert_perm keys r (ExternalSort keys rest)).trans
      ((ExternalSort_perm rest).cons r)

theorem sortInsert_chain (x : Row V) :
    ∀ l : List (Row V), List.Chain' (keyLe keys) l →
      List.Chain' (keyLe keys) (sortInsert keys x l)
  | [], _ => List.chain'_singleton x
  | y :: ys, hchain => by
    unfold sortInsert
    by_cases h : keyLt (keyOf keys y) (keyOf keys x) = true
    · rw [if_pos h]
      have htail := sortInsert_chain x ys hchain.tail
      refine List.chain'_cons'.mpr ⟨?_, htail⟩
      intro z hz
      cases ys with
      | nil =>
        simp only [sortInsert, List.head?_cons, Option.mem_def,
          Option.some.injEq] at hz
        subst hz
        exact Or.inl h
      | cons y' ys' =>
        simp only [sortInsert] at hz
        by_cases h' : keyLt (keyOf keys y') (keyOf keys x) = true
        · rw [if_pos h'] at hz
          simp only [List.head?_cons, Option.mem_def, Option.some.injEq] at hz
          subst hz
          exact (List.chain'_cons.mp hchain).1
        · rw [if_neg h'] at hz
          simp only [List.head?_cons, Option.mem_def, Option.some.injEq] at hz
          subst hz
          exact Or.inl h
    · rw [if_neg h]
      refine List.chain'_cons.mpr ⟨?_, hchain⟩
      by_cases heq : keyLt (keyOf keys x) (keyOf keys y) = true
      · exact Or.inl heq
      · exact Or.inr (lexLt_connex vLt_strict _ _ (by simpa using heq) (by simpa using h))

theorem ExternalSort_chain :
    ∀ rows : List (Row V), List.Chain' (keyLe keys) (ExternalSort keys rows)
  | [] => List.chain'_nil
  | r :: rest => sortInsert_chain keys r (ExternalSort keys rest)
      (ExternalSort_chain rest)

theorem sortInsert_filter_key (x : Row V) (k : List V) :
    ∀ l : List (Row V),
      (sortInsert keys x l).filter (fun r => decide (keyOf keys r = k)) =
        if keyOf keys x = k then
          x :: l.filter (fun r => decide (keyOf keys r = k))
        else l.filter (fun r => decide (keyOf keys r = k))
  | [] => by
    by_cases hx : keyOf keys x = k
    · simp [sortInsert, hx]
    · simp [sortInsert, hx]
  | y :: ys => by
    unfold sortInsert
    by_cases h : keyLt (keyOf keys y) (keyOf keys x) = true
    · rw [if_pos h]
      by_cases hx : keyOf keys x = k
      · have hy : keyOf keys y ≠ k := by
          intro hy
          rw [← hx] at hy
          rw [hy] at h
          exact absurd h (by simp [keyLt_strict.irrefl (keyOf keys x)])
        rw [List.filter_cons_of_neg (by simpa using hy),
          sortInsert_filter_key x k ys, if_pos hx, if_pos hx,
          List.filter_cons_of_neg (by simpa using hy)]
      · by_cases hy : keyOf keys y = k
        · rw [List.filter_cons_of_pos (by simpa using hy),
            sortInsert_filter_key x k ys, if_neg hx, if_neg hx,
            List.filter_cons_of_pos (by simpa using hy)]
        · rw [List.filter_cons_of_neg (by simpa using hy),
            sortInsert_filter_key x k ys, if_neg hx, if_neg hx,
            List.filter_cons_of_neg (by simpa using hy)]
    · rw [if_neg h]
      by_cases hx : keyOf keys x = k
      · rw [if_pos hx, List.filter_cons_of_pos (by simpa using hx)]
      · rw [if_neg hx, List.filter_cons_of_neg (by simpa using hx)]

theorem ExternalSort_filter_key (k : List V) :
    ∀ rows : List (Row V),
      (ExternalSort keys rows).filter (fun r => decide (keyOf keys r = k)) =
        rows.filter (fun r => decide (keyOf keys r = k))
  | [] => rfl
  | r :: rest => by
    show (sortInsert keys r (ExternalSort keys rest)).filter _ = _
    rw [sortInsert_filter_key keys r k (ExternalSort keys rest)]
    by_cases hr : keyOf keys r = k
    · rw [if_pos hr, List.filter_cons_of_pos (by simpa using hr),
        ExternalSort_filter_key k rest]
    · rw [if_neg hr, List.filter_cons_of_neg (by simpa using hr),
        ExternalSort_filter_key k rest]

end SortLemmas

/-- **C2.** The output of `sort(K)` is a permutation of the input, its key
values are non-decreasing between adjacent rows, and rows with equal keys
retain their input order: for every key value, the subsequence of output rows
with that key equals the subsequence of input rows with that key. -/
theorem sort_stable_permutation_c2 {V : Type} [LinearOrder V] [Inhabited V]
    (keys : List String) (rows : List (Row V)) :
    (ExternalSort keys rows).Perm rows ∧
    List.Chain' (keyLe keys) (ExternalSort keys rows) ∧
    ∀ k : List V,
      (ExternalSort keys rows).filter (fun r => decide (keyOf keys r = k)) =
        rows.filter (fun r => decide (keyOf keys r = k)) :=
  ⟨ExternalSort_perm keys rows, ExternalSort_chain keys rows,
    fun k => ExternalSort_filter_key keys k rows⟩

end Compgraph

namespace Compgraph

/-! ## Reduce (claims C7 and C10) -/

/-- `Reduce.__call__`: group the stream with
`groupby(rows, key=lambda row: [row[key] for key in self.keys])` and, for each
group, forward every row the reducer emits for `(tuple(self.keys), group)`,
in order.  The reducer is modelled as the list-valued function of the key
names and the group's rows. -/
def reduceCall {V : Type} [DecidableEq V] [Inhabited V]
    (red : List String → List (Row V) → List (Row V))
    (keys : List String) (rows : List (Row V)) : List (Row V) :=
  (groupRuns (keyOf keys) rows).flatMap (fun g => red keys g.2)

/-- Written from the spec's words: `runs` partitions `rows` into maximal
equal-key runs — concatenating the runs restores the stream, every run is a
nonempty block of constant key, and adjacent runs carry different keys. -/
def IsMaximalRunPartition {α K : Type} (f : α → K) (rows : List α)
    (runs : List (K × List α)) : Prop :=
  (runs.map Prod.snd).flatten = rows ∧
  (∀ g ∈ runs, g.2 ≠ [] ∧ ∀ x ∈ g.2, f x = g.1) ∧
  List.Chain' (fun g h : K × List α => g.1 ≠ h.1) runs

/-- **C7.** On an input sorted by the key tuple, `Reduce` invokes the reducer
once per maximal equal-key run — with the key names and exactly that run's
rows — and forwards the emitted rows in run order; the runs form a maximal
equal-key partition of the stream. -/
theorem reduce_locality_c7 {V : Type} [LinearOrder V] [Inhabited V]
    (red : List String → List (Row V) → List (Row V)) (keys : List String)
    (rows : List (Row V)) (hsorted : List.Chain' (keyLe keys) rows) :
    reduceCall red keys rows =
      ((groupRuns (keyOf keys) rows).map (fun g => red keys g.2)).flatten ∧
    IsMaximalRunPartition (keyOf keys) rows (groupRuns (keyOf keys) rows) := by
  refine ⟨?_, ?_, ?_, ?_⟩
  · rw [reduceCall, List.flatMap_def]
  · exact groupRuns_flatten (keyOf keys) rows
  · exact groupRuns_mem (keyOf keys) rows
  · exact groupRuns_adj_ne (keyOf keys) rows

theorem reduce_locality_c7_witness :
    (reduceCall (fun _ g => g.take 1) ["k"]
        [[("k", (1 : Int)), ("v", 10)], [("k", 1), ("v", 20)], [("k", 2)]] =
      ((groupRuns (keyOf ["k"])
          [[("k", (1 : Int)), ("v", 10)], [("k", 1), ("v", 20)], [("k", 2)]]).map
        (fun g => (fun (_ : List String) (g : List (Row Int)) => g.take 1) ["k"] g.2)).flatten) ∧
    IsMaximalRunPartition (keyOf ["k"])
      [[("k", (1 : Int)), ("v", 10)], [("k", 1), ("v", 20)], [("k", 2)]]
      (groupRuns (keyOf ["k"])
        [[("k", (1 : Int)), ("v", 10)], [("k", 1), ("v", 20)], [("k", 2)]]) :=
  reduce_locality_c7 (fun _ g => g.take 1) ["k"]
    [[("k", (1 : Int)), ("v", 10)], [("k", 1), ("v", 20)], [("k", 2)]]
    (by
      refine List.chain'_cons.mpr ⟨Or.inr (by decide), ?_⟩
      exact List.chain'_pair.mpr (Or.inl (by decide)))

theorem groupRuns_const {α K : Type} [DecidableEq K] (c : K) :
    ∀ l : List α, l ≠ [] → groupRuns (fun _ => c) l = [(c, l)]
  | [], h => absurd rfl h
  | [a], _ => by simp [groupRuns]
  | a :: b :: rest, _ => by
    have ih := groupRuns_const c (b :: rest) (by simp)
    rw [groupRuns_cons, ih]
    simp

/-- **C10.** With an empty key sequence every row gets the same empty grouping
key, so a nonempty stream forms a single maximal group — the reducer is
invoked exactly once, on the whole stream — while an empty stream yields no
invocation at all; no error arises from the empty key list. -/
theorem reduce_empty_keys_single_group_c10 {V : Type} [DecidableEq V]
    [Inhabited V] (red : List String → List (Row V) → List (Row V))
    (rows : List (Row V)) (r : Row V) (hne : rows ≠ []) :
    keyOf ([] : List String) r = [] ∧
    groupRuns (keyOf ([] : List String)) rows = [([], rows)] ∧
    reduceCall red [] rows = red [] rows ∧
    reduceCall red [] ([] : List (Row V)) = [] := by
  have hgr : groupRuns (keyOf ([] : List String)) rows = [([], rows)] :=
    groupRuns_const ([] : List V) rows hne
  refine ⟨rfl, hgr, ?_, rfl⟩
  rw [reduceCall, hgr]
  simp

theorem reduce_empty_keys_single_group_c10_witness :
    keyOf ([] : List String) [("a", (1 : Int))] = [] ∧
    groupRuns (keyOf ([] : List String))
      [[("a", (1 : Int))], [("b", 2)]] = [([], [[("a", (1 : Int))], [("b", 2)]])] ∧
    reduceCall (fun _ g => g.take 1) []
        [[("a", (1 : Int))], [("b", 2)]] =
      (fun (_ : List String) (g : List (Row Int)) => g.take 1) []
        [[("a", (1 : Int))], [("b", 2)]] ∧
    reduceCall (fun _ g => g.take 1) [] ([] : List (Row Int)) = [] :=
  reduce_empty_keys_single_group_c10 (fun _ g => g.take 1)
    [[("a", (1 : Int))], [("b", 2)]] [("a", (1 : Int))] (by simp)

/-! ## Split (claim C3) -/

/-- Python's `str.isspace` on the ASCII whitespace relevant to `str.split()`. -/
def pyIsSpace (c : Char) : Bool :=
  c == ' ' || c == '\t' || c == '\n' || c == '\r' || c == '\x0b' || c == '\x0c'

/-- Helper for `str.split()` with no argument: split on runs of whitespace and
drop empty tokens.  `acc` holds the current token, reversed. -/
def splitWsAux : List Char → List Char → List (List Char)
  | [], acc => if acc.isEmpty then [] else [acc.reverse]
  | c :: cs, acc =>
    if pyIsSpace c then
      if acc.isEmpty then splitWsAux cs [] else acc.reverse :: splitWsAux cs []
    else splitWsAux cs (c :: acc)

/-- Python's `s.split()` (no separator argument): whitespace tokenisation. -/
def pySplitWhitespace (s : String) : List String :=
  (splitWsAux s.data []).map List.asString

/-- `Split.__call__`: the source reads `values = row[self.column].split()` and
yields, per token, a copy of the row with the token replacing the column —
note that it calls `.split()` with no argument, so the constructor's
`separator` parameter is never consulted. -/
def splitCall (column : String) (separator : Option String) (row : Row String) :
    List (Row String) :=
  (pySplitWhitespace ((row.find? column).getD default)).map
    (fun tok => row.set column tok)

/-- **C3 (code bug).** `Split(col, sep)` is documented ("Split row on multiple
rows by separator", ":param separator: string to separate by") and specified
to split on `sep` when given, yet the code always splits on whitespace: with
`sep = ","` the row `{text: "a,b"}` comes back as the single unsplit token,
while the whitespace cases behave as specified. -/
theorem split_ignores_separator_c3 :
    splitCall "text" (some ",") [("text", "a,b")] = [[("text", "a,b")]] ∧
    splitCall "text" (some ",") [("text", "a b")] =
      [[("text", "a")], [("text", "b")]] ∧
    splitCall "text" none [("text", "a b")] =
      [[("text", "a")], [("text", "b")]] := by
  refine ⟨?_, ?_, ?_⟩ <;> rfl

/-! ## Inverse (claim C9) -/

theorem Row.find?_set_self {V : Type} (k : String) (v : V) :
    ∀ r : Row V, (r.set k v).find? k = some v
  | [] => by simp [Row.set, Row.find?]
  | (k', v') :: rest => by
    by_cases h : k' = k
    · simp [Row.set, h, Row.find?]
    · simp only [Row.set, if_neg h, Row.find?, Row.find?_set_self k v rest]

theorem Row.set_set {V : Type} (k : String) (v w : V) :
    ∀ r : Row V, (r.set k v).set k w = r.set k w
  | [] => by simp [Row.set]
  | (k', v') :: rest => by
    by_cases h : k' = k
    · simp [Row.set, h]
    · simp only [Row.set, if_neg h, List.cons.injEq, true_and]
      exact Row.set_set k v w rest

theorem Row.set_same {V : Type} (k : String) (v : V) :
    ∀ r : Row V, r.find? k = some v → r.set k v = r
  | [], h => by simp [Row.find?] at h
  | (k', v') :: rest, h => by
    by_cases hk : k' = k
    · subst hk
      have h' : v' = v := by simpa [Row.find?] using h
      subst h'
      simp [Row.set]
    · simp only [Row.find?, if_neg hk] at h
      simp only [Row.set, if_neg hk, List.cons.injEq, true_and]
      exact Row.set_same k v rest h

/-- `Inverse.__call__`: negate the named column in place and yield the row. -/
def inverseCall {V : Type} [Neg V] [Inhabited V] (column : String)
    (row : Row V) : List (Row V) :=
  [row.set column (-((row.find? column).getD default))]

/-- **C9.** Applying `Inverse(col)` twice in succession restores the row: the
column holds its original numeric value again (and no other field changed), so
`Inverse ∘ Inverse` is the identity. -/
theorem inverse_involution_c9 {V : Type} [AddGroup V] [Inhabited V]
    (column : String) (row : Row V) (v : V)
    (h : row.find? column = some v) :
    (inverseCall column row).flatMap (inverseCall column) = [row] := by
  simp only [inverseCall, List.flatMap_cons, List.flatMap_nil, List.append_nil]
  rw [h]
  simp only [Option.getD_some]
  rw [Row.find?_set_self]
  simp only [Option.getD_some, neg_neg]
  rw [Row.set_set, Row.set_same column v row h]

theorem inverse_involution_c9_witness :
    (inverseCall "x" [("x", (5 : Int)), ("y", 7)]).flatMap (inverseCall "x") =
      [[("x", (5 : Int)), ("y", 7)]] :=
  inverse_involution_c9 "x" [("x", (5 : Int)), ("y", 7)] 5 rfl

end Compgraph

namespace Compgraph

/-! ## Graph plans and `run` (claims C4 and C6) -/

/-- The spec's error taxonomy (§7) for source binding failures.  The source
raises Python `KeyError` at `kwargs[self.name]` when a named iterator source
has no binding; spec §4.1/§7 names that failure category `ConfigError`
("missing source binding"), the name used by this embedding. -/
inductive EngineError : Type
  | configError (missing : String)
deriving DecidableEq

/-- Look up a named source binding among the `kwargs` passed to `run`.  A
factory is deterministic, so it is modelled by the row list it produces. -/
def lookupSrc {α : Type} (name : String) : List (String × α) → Option α
  | [] => none
  | (n, v) :: rest => if n = name then some v else lookupSrc name rest

/-- A graph's recorded plan: the `Operation` tree built by the `Graph`
builder (`ReadIterFactory` leaves, `AddOperation(Map(m), ...)`,
`AddOperation(Reduce(red, keys), ...)`, `AddOperation(ExternalSort(keys), ...)`
and `GraphsJoiner(Join(joiner, keys), g1, g2)`). -/
inductive Plan (V : Type) : Type
  | readIter (name : String)
  | mapOp (m : Row V → List (Row V)) (p : Plan V)
  | reduceOp (red : List String → List (Row V) → List (Row V))
      (keys : List String) (p : Plan V)
  | sortOp (keys : List String) (p : Plan V)
  | joinOp (strat : Strategy) (sa sb : String) (keys : List String)
      (p q : Plan V)

/-- `Graph.run(**kwargs)`: pull the whole output stream of a plan.  A named
source with no binding fails when the stream is consumed (the leaf reads
`kwargs[self.name]`); the failure propagates to the consumer, modelled with
`Except`.  A join runs both parent plans with the same source bindings. -/
def Plan.run {V : Type} [LinearOrder V] [Inhabited V] :
    Plan V → List (String × List (Row V)) → Except EngineError (List (Row V))
  | .readIter name, src =>
    match lookupSrc name src with
    | some rows => .ok rows
    | none => .error (.configError name)
  | .mapOp m p, src => (Plan.run p src).map (fun rows => rows.flatMap m)
  | .reduceOp red keys p, src => (Plan.run p src).map (reduceCall red keys)
  | .sortOp keys p, src => (Plan.run p src).map (ExternalSort keys)
  | .joinOp strat sa sb keys p q, src =>
    match Plan.run p src, Plan.run q src with
    | .ok ra, .ok rb => .ok (joinCall strat sa sb keys ra rb)
    | .error e, _ => .error e
    | .ok _, .error e => .error e

/-- Whether a plan contains a named iterator source with the given name. -/
def Plan.mentionsSource {V : Type} : Plan V → String → Bool
  | .readIter n, name => n == name
  | .mapOp _ p, name => p.mentionsSource name
  | .reduceOp _ _ p, name => p.mentionsSource name
  | .sortOp _ p, name => p.mentionsSource name
  | .joinOp _ _ _ _ p q, name =>
    p.mentionsSource name || q.mentionsSource name

/-- **C4.** Running a graph that contains a named iterator source whose name
has no binding among the supplied sources fails, when the output stream is
consumed, with the missing-source `ConfigError` (the source raises `KeyError`
at `kwargs[self.name]`; §7 of the spec names this category `ConfigError`). -/
theorem missing_source_config_error_c4 {V : Type} [LinearOrder V] [Inhabited V]
    (p : Plan V) (name : String) (src : List (String × List (Row V)))
    (hmention : p.mentionsSource name = true)
    (hmissing : lookupSrc name src = none) :
    ∃ m, Plan.run p src = .error (.configError m) := by
  induction p with
  | readIter n =>
    have hn : n = name := by simpa [Plan.mentionsSource] using hmention
    subst hn
    exact ⟨n, by simp [Plan.run, hmissing]⟩
  | mapOp m q ih =>
    obtain ⟨mm, hm⟩ := ih (by simpa [Plan.mentionsSource] using hmention)
    exact ⟨mm, by simp [Plan.run, hm, Except.map]⟩
  | reduceOp red keys q ih =>
    obtain ⟨mm, hm⟩ := ih (by simpa [Plan.mentionsSource] using hmention)
    exact ⟨mm, by simp [Plan.run, hm, Except.map]⟩
  | sortOp keys q ih =>
    obtain ⟨mm, hm⟩ := ih (by simpa [Plan.mentionsSource] using hmention)
    exact ⟨mm, by simp [Plan.run, hm, Except.map]⟩
  | joinOp strat sa sb keys q1 q2 ih1 ih2 =>
    have hor : q1.mentionsSource name = true ∨ q2.mentionsSource name = true := by
      simpa [Plan.mentionsSource, Bool.or_eq_true] using hmention
    cases hp : Plan.run q1 src with
    | error e =>
      cases e with
      | configError m => exact ⟨m, by simp [Plan.run, hp]⟩
    | ok ra =>
      rcases hor with hml | hmr
      · obtain ⟨m, hm⟩ := ih1 hml
        rw [hp] at hm
        cases hm
      · obtain ⟨m, hm⟩ := ih2 hmr
        exact ⟨m, by simp [Plan.run, hp, hm]⟩

theorem missing_source_config_error_c4_witness :
    ∃ m, Plan.run (Plan.mapOp (fun r => [r]) (Plan.readIter "xs") : Plan Int)
        [("other", [[("a", (1 : Int))]])] =
      .error (.configError m) :=
  missing_source_config_error_c4 (Plan.mapOp (fun r => [r]) (Plan.readIter "xs"))
    "xs" [("other", [[("a", (1 : Int))]])] (by decide) (by decide)

/-- `Graph`: the builder object; it records only its sink operation. -/
structure Graph (V : Type) : Type where
  op : Plan V

/-- `Graph.map`: build a new graph whose plan wraps the receiver's plan in a
map operation (`AddOperation(Map(mapper), self.op)`); the receiver is not
touched. -/
def Graph.map {V : Type} (g : Graph V) (m : Row V → List (Row V)) : Graph V :=
  ⟨Plan.mapOp m g.op⟩

/-- `Graph.run`: execute the recorded plan against the given bindings. -/
def Graph.run {V : Type} [LinearOrder V] [Inhabited V] (g : Graph V)
    (src : List (String × List (Row V))) : Except EngineError (List (Row V)) :=
  g.op.run src

/-- **C6.** `g.map(m)` returns a new graph — one that wraps `g`'s plan, which
itself appears unchanged inside it and differs from the new plan — and maps
`m` over `g`'s output; running a graph twice with identical deterministic
source bindings yields identical output streams. -/
theorem graph_map_immutable_run_deterministic_c6 {V : Type} [LinearOrder V]
    [Inhabited V] (g : Graph V) (m : Row V → List (Row V))
    (src₁ src₂ : List (String × List (Row V))) (h : src₁ = src₂) :
    Graph.map g m = ⟨Plan.mapOp m g.op⟩ ∧
    (Graph.map g m).op ≠ g.op ∧
    Graph.run (Graph.map g m) src₁ =
      (Graph.run g src₁).map (fun rows => rows.flatMap m) ∧
    Graph.run g src₁ = Graph.run g src₂ := by
  refine ⟨rfl, ?_, rfl, by rw [h]⟩
  intro heq
  have hsz := congrArg sizeOf heq
  simp only [Graph.map] at hsz
  have : sizeOf g.op < sizeOf (Plan.mapOp m g.op) := by
    cases g with
    | mk op => simp
  omega

theorem graph_map_immutable_run_deterministic_c6_witness :
    (Graph.map (⟨Plan.readIter "xs"⟩ : Graph Int) (fun r => [r]) =
      ⟨Plan.mapOp (fun r => [r]) (Graph.mk (Plan.readIter "xs")).op⟩) ∧
    (Graph.map (⟨Plan.readIter "xs"⟩ : Graph Int) (fun r => [r])).op ≠
      (Graph.mk (Plan.readIter "xs")).op ∧
    Graph.run (Graph.map (⟨Plan.readIter "xs"⟩ : Graph Int) (fun r => [r]))
        [("xs", [[("a", (1 : Int))]])] =
      (Graph.run (⟨Plan.readIter "xs"⟩ : Graph Int)
          [("xs", [[("a", (1 : Int))]])]).map (fun rows => rows.flatMap (fun r => [r])) ∧
    Graph.run (⟨Plan.readIter "xs"⟩ : Graph Int) [("xs", [[("a", (1 : Int))]])] =
      Graph.run (⟨Plan.readIter "xs"⟩ : Graph Int) [("xs", [[("a", (1 : Int))]])] :=
  graph_map_immutable_run_deterministic_c6 ⟨Plan.readIter "xs"⟩ (fun r => [r])
    [("xs", [[("a", (1 : Int))]])] [("xs", [[("a", (1 : Int))]])] rfl

end Compgraph

namespace Compgraph

/-! ## TopN (claim C8)

`TopN.__call__` keeps a `heapq` heap of `(row[column], list(row.items()))`
tuples, pushing every row and popping the minimum whenever the heap exceeds
`n`; Python compares these tuples lexicographically.  The binary heap's array
is modelled as a list kept sorted ascending under the tuple order: `heappush`
is sorted insertion and `heappop` removal of the head.  Both implementations
pop a least entry, and two entries that compare equal are identical (same
value, same item list), so the retained multiset of entries is the same. -/

/-- Python's `<` on pairs, lexicographic from two strict comparisons. -/
def prodLt {A B : Type} (lt1 : A → A → Bool) (lt2 : B → B → Bool)
    (a b : A × B) : Bool :=
  if lt1 a.1 b.1 then true else if lt1 b.1 a.1 then false else lt2 a.2 b.2

theorem prodLt_strict {A B : Type} {lt1 : A → A → Bool} {lt2 : B → B → Bool}
    (h1 : StrictCmp lt1) (h2 : StrictCmp lt2) : StrictCmp (prodLt lt1 lt2) := by
  refine ⟨?_, ?_, ?_⟩
  · rintro ⟨a1, b1⟩ ⟨a2, b2⟩ h
    by_cases ha : lt1 a1 a2 = true
    · simp [prodLt, h1.1 a1 a2 ha, ha]
    · by_cases ha' : lt1 a2 a1 = true
      · simp [prodLt, ha, ha'] at h
      · have hb : lt2 b1 b2 = true := by simpa [prodLt, ha, ha'] using h
        simp [prodLt, ha, ha', h2.1 b1 b2 hb]
  · rintro ⟨a1, b1⟩ ⟨a2, b2⟩ ⟨a3, b3⟩ h₁ h₂
    by_cases h12 : lt1 a1 a2 = true
    · by_cases h23 : lt1 a2 a3 = true
      · simp [prodLt, h1.2.1 a1 a2 a3 h12 h23]
      · by_cases h32 : lt1 a3 a2 = true
        · simp [prodLt, h23, h32] at h₂
        · have heq : a2 = a3 := h1.2.2 a2 a3 (by simpa using h23) (by simpa using h32)
          subst heq
          simp [prodLt, h12]
    · by_cases h21 : lt1 a2 a1 = true
      · simp [prodLt, h12, h21] at h₁
      · have heq : a1 = a2 := h1.2.2 a1 a2 (by simpa using h12) (by simpa using h21)
        subst heq
        have hb12 : lt2 b1 b2 = true := by
          simpa [prodLt, h1.irrefl a1] using h₁
        by_cases h13 : lt1 a1 a3 = true
        · simp [prodLt, h13]
        · by_cases h31 : lt1 a3 a1 = true
          · simp [prodLt, h13, h31] at h₂
          · have hb23 : lt2 b2 b3 = true := by simpa [prodLt, h13, h31] using h₂
            simp [prodLt, h13, h31, h2.2.1 b1 b2 b3 hb12 hb23]
  · rintro ⟨a1, b1⟩ ⟨a2, b2⟩ h₁ h₂
    by_cases h12 : lt1 a1 a2 = true
    · simp [prodLt, h12] at h₁
    · by_cases h21 : lt1 a2 a1 = true
      · simp [prodLt, h12, h21] at h₂
      · have ha : a1 = a2 := h1.2.2 a1 a2 (by simpa using h12) (by simpa using h21)
        subst ha
        have hb1 : lt2 b1 b2 = false := by simpa [prodLt, h1.irrefl a1] using h₁
        have hb2 : lt2 b2 b1 = false := by simpa [prodLt, h1.irrefl a1] using h₂
        rw [h2.2.2 b1 b2 hb1 hb2]

/-- In a strict total comparison, "not above" is transitive. -/
theorem StrictCmp.false_trans {α : Type} {lt : α → α → Bool} (hs : StrictCmp lt)
    {a b c : α} (h₁ : lt b a = false) (h₂ : lt c b = false) : lt c a = false := by
  cases h : lt c a with
  | false => rfl
  | true =>
    by_cases hcb : lt c b = true
    · rw [hcb] at h₂
      cases h₂
    · by_cases hbc : lt b c = true
      · have := hs.2.1 b c a hbc h
        rw [this] at h₁
        cases h₁
      · have heq : b = c := hs.2.2 b c (by simpa using hbc) (by simpa using hcb)
        subst heq
        rw [h] at h₁
        cases h₁

/-- In a list sorted ascending w.r.t. `fun a b => lt b a = false`, the head is
a minimum. -/
theorem chain_head_min {α : Type} {lt : α → α → Bool} (hs : StrictCmp lt) :
    ∀ (m : α) (t : List α),
      List.Chain' (fun a b => lt b a = false) (m :: t) →
      ∀ z ∈ t, lt z m = false
  | _, [], _ => by simp
  | m, y :: t, hchain => by
    rcases List.chain'_cons.mp hchain with ⟨h₁, h₂⟩
    intro z hz
    rcases List.mem_cons.mp hz with rfl | hz'
    · exact h₁
    · exact hs.false_trans h₁ (chain_head_min hs y t h₂ z hz')

/-- The tuple pushed on the heap for a row:
`(row[self.column_max], [(key, value) for key, value in row.items()])`. -/
def entryOf {V : Type} [Inhabited V] (column : String) (r : Row V) :
    V × Row V :=
  ((r.find? column).getD default, r)

/-- Python's `<` on heap entries: the value first, then the item list. -/
def entryLt {V : Type} [LinearOrder V] (a b : V × Row V) : Bool :=
  prodLt vLt (lexLt pairLt) a b

theorem entryLt_strict {V : Type} [LinearOrder V] :
    StrictCmp (entryLt (V := V)) :=
  prodLt_strict vLt_strict
    ⟨lexLt_asymm pairLt_strict, lexLt_trans pairLt_strict,
      lexLt_connex pairLt_strict⟩

/-- `heapq.heappush`: the sorted-list model inserts before the first strictly
greater entry. -/
def heapInsert {V : Type} [LinearOrder V] (x : V × Row V) :
    List (V × Row V) → List (V × Row V)
  | [] => [x]
  | y :: ys => if entryLt x y then x :: y :: ys else y :: heapInsert x ys

/-- One iteration of the `TopN` loop: push the row's entry, and pop the
minimum when the heap holds more than `n` entries. -/
def topnStep {V : Type} [LinearOrder V] [Inhabited V] (column : String)
    (n : Nat) (heap : List (V × Row V)) (row : Row V) : List (V × Row V) :=
  let heap' := heapInsert (entryOf column row) heap
  if n < heap'.length then heap'.tail else heap'

/-- `TopN.__call__`: fold the group through the heap loop, then yield the
retained rows (`{key: value for key, value in values}` rebuilds each stored
item list, which is the row itself). -/
def topnCall {V : Type} [LinearOrder V] [Inhabited V] (column : String)
    (n : Nat) (rows : List (Row V)) : List (Row V) :=
  (rows.foldl (topnStep column n) []).map Prod.snd

section TopNLemmas

variable {V : Type} [LinearOrder V] [Inhabited V]

theorem heapInsert_length (x : V × Row V) :
    ∀ l : List (V × Row V), (heapInsert x l).length = l.length + 1
  | [] => rfl
  | y :: ys => by
    unfold heapInsert
    by_cases h : entryLt x y = true
    · simp [h]
    · simp [h, heapInsert_length x ys]

theorem heapInsert_perm (x : V × Row V) :
    ∀ l : List (V × Row V), (heapInsert x l).Perm (x :: l)
  | [] => List.Perm.refl _
  | y :: ys => by
    unfold heapInsert
    by_cases h : entryLt x y = true
    · rw [if_pos h]
    · rw [if_neg h]
      exact ((heapInsert_perm x ys).cons y).trans (List.Perm.swap x y ys)

theorem heapInsert_chain (x : V × Row V) :
    ∀ l : List (V × Row V),
      List.Chain' (fun a b => entryLt b a = false) l →
      List.Chain' (fun a b => entryLt b a = false) (heapInsert x l)
  | [], _ => List.chain'_singleton x
  | y :: ys, hchain => by
    unfold heapInsert
    by_cases h : entryLt x y = true
    · rw [if_pos h]
      exact List.Chain'.cons (entryLt_strict.1 x y h) hchain
    · rw [if_neg h]
      have htail := heapInsert_chain x ys hchain.tail
      refine List.chain'_cons'.mpr ⟨?_, htail⟩
      intro z hz
      cases ys with
      | nil =>
        simp only [heapInsert, List.head?_cons, Option.mem_def,
          Option.some.injEq] at hz
        subst hz
        simpa using h
      | cons y' ys' =>
        simp only [heapInsert] at hz
        by_cases h' : entryLt x y' = true
        · rw [if_pos h'] at hz
          simp only [List.head?_cons, Option.mem_def, Option.some.injEq] at hz
          subst hz
          simpa using h
        · rw [if_neg h'] at hz
          simp only [List.head?_cons, Option.mem_def, Option.some.injEq] at hz
          subst hz
          exact (List.chain'_cons.mp hchain).1

end TopNLemmas

end Compgraph

namespace Compgraph

section TopNInvariant

variable {V : Type} [LinearOrder V] [Inhabited V]

/-- The loop invariant of `TopN` after processing the rows `P`: the heap is
sorted ascending under the tuple order, holds well-formed entries, has
`min n |P|` of them, and `P` splits into the retained rows plus a multiset of
dropped rows, every dropped row lying at or below every retained entry. -/
def TopNInv (column : String) (n : Nat) (P : List (Row V))
    (heap : List (V × Row V)) : Prop :=
  List.Chain' (fun a b => entryLt b a = false) heap ∧
  (∀ z ∈ heap, z = entryOf column z.2) ∧
  heap.length = min n P.length ∧
  ∃ dropped : Multiset (Row V),
    (P : Multiset (Row V)) = dropped + ((heap.map Prod.snd : List (Row V)) : Multiset (Row V)) ∧
    ∀ d ∈ dropped, ∀ z ∈ heap, entryLt z (entryOf column d) = false

theorem topnStep_inv (column : String) (n : Nat) (P : List (Row V))
    (heap : List (V × Row V)) (r : Row V) (hinv : TopNInv column n P heap) :
    TopNInv column n (P ++ [r]) (topnStep column n heap r) := by
  obtain ⟨hchain, hwf, hlen, dropped, hP, hdrop⟩ := hinv
  have hlen' : (heapInsert (entryOf column r) heap).length = heap.length + 1 :=
    heapInsert_length (entryOf column r) heap
  have hperm : (heapInsert (entryOf column r) heap).Perm
      (entryOf column r :: heap) := heapInsert_perm (entryOf column r) heap
  have hchain' :
      List.Chain' (fun a b => entryLt b a = false)
        (heapInsert (entryOf column r) heap) :=
    heapInsert_chain (entryOf column r) heap hchain
  have hwf' : ∀ z ∈ heapInsert (entryOf column r) heap, z = entryOf column z.2 := by
    intro z hz
    rcases List.mem_cons.mp (hperm.mem_iff.mp hz) with rfl | hz'
    · rfl
    · exact hwf z hz'
  have hrows' :
      ((((heapInsert (entryOf column r) heap).map Prod.snd : List (Row V))) : Multiset (Row V)) =
        r ::ₘ ((heap.map Prod.snd : List (Row V)) : Multiset (Row V)) := by
    have := (hperm.map Prod.snd)
    have hcoe := Multiset.coe_eq_coe.mpr this
    simpa [entryOf] using hcoe
  unfold topnStep
  by_cases hov : n < (heapInsert (entryOf column r) heap).length
  · -- pop branch
    rw [if_pos hov]
    have hlenn : heap.length = n := by
      rw [hlen'] at hov
      omega
    have hPlen : n ≤ P.length := by
      rw [hlenn] at hlen
      omega
    obtain ⟨m, t, hmt⟩ : ∃ m t, heapInsert (entryOf column r) heap = m :: t := by
      cases hh : heapInsert (entryOf column r) heap with
      | nil =>
        rw [hh] at hlen'
        simp at hlen'
      | cons m t => exact ⟨m, t, rfl⟩
    have hmin : ∀ z ∈ heapInsert (entryOf column r) heap, entryLt z m = false := by
      intro z hz
      rw [hmt] at hz
      rcases List.mem_cons.mp hz with rfl | hz'
      · exact entryLt_strict.irrefl z
      · exact chain_head_min entryLt_strict m t (hmt ▸ hchain') z hz'
    have hmmem : m ∈ heapInsert (entryOf column r) heap := by
      rw [hmt]
      exact List.mem_cons_self m t
    have htlen : t.length = n := by
      have := hlen'
      rw [hmt] at this
      simp only [List.length_cons] at this
      omega
    rw [hmt]
    simp only [List.tail_cons]
    refine ⟨?_, ?_, ?_, ?_⟩
    · exact (hmt ▸ hchain').tail
    · intro z hz
      refine hwf' z ?_
      rw [hmt]
      exact List.mem_cons_of_mem m hz
    · rw [htlen]
      simp only [List.length_append, List.length_singleton]
      omega
    · refine ⟨m.2 ::ₘ dropped, ?_, ?_⟩
      · have h1 : ((P ++ [r] : List (Row V)) : Multiset (Row V)) =
            (P : Multiset (Row V)) + {r} := by
          rw [← Multiset.coe_add]
          simp
        have h2 : r ::ₘ ((heap.map Prod.snd : List (Row V)) : Multiset (Row V)) =
            m.2 ::ₘ ((t.map Prod.snd : List (Row V)) : Multiset (Row V)) := by
          rw [← hrows', hmt]
          simp
        rw [h1, hP]
        rw [← Multiset.singleton_add, ← Multiset.singleton_add] at h2
        rw [← Multiset.singleton_add]
        calc dropped + ↑(List.map Prod.snd heap) + {r}
            = dropped + ({r} + ↑(List.map Prod.snd heap)) := by
              simp only [add_assoc, add_comm, add_left_comm]
          _ = dropped + ({m.2} + ↑(List.map Prod.snd t)) := by rw [h2]
          _ = {m.2} + dropped + ↑(List.map Prod.snd t) := by
              simp only [add_assoc, add_comm, add_left_comm]
      · intro d hd k hk
        have hk' : k ∈ heapInsert (entryOf column r) heap := by
          rw [hmt]
          exact List.mem_cons_of_mem m hk
        rcases Multiset.mem_cons.mp hd with rfl | hd'
        · have hmwf : m = entryOf column m.2 := hwf' m hmmem
          rw [← hmwf]
          exact hmin k hk'
        · by_cases hkh : k ∈ heap
          · exact hdrop d hd' k hkh
          · have hke : k = entryOf column r := by
              rcases List.mem_cons.mp (hperm.mem_iff.mp hk') with h | h
              · exact h
              · exact absurd h hkh
            have hmh : m ∈ heap := by
              rcases List.mem_cons.mp (hperm.mem_iff.mp hmmem) with hme | hmh
              · exfalso
                have hpt : (m :: t).Perm (entryOf column r :: heap) := hmt ▸ hperm
                rw [hme] at hpt
                have htp : t.Perm heap := hpt.cons_inv
                exact hkh (htp.mem_iff.mp hk)
              · exact hmh
            have h1 : entryLt m (entryOf column d) = false := hdrop d hd' m hmh
            have h2 : entryLt (entryOf column r) m = false :=
              hmin (entryOf column r) (hperm.mem_iff.mpr (List.mem_cons_self _ heap))
            rw [hke]
            exact entryLt_strict.false_trans h1 h2
  · -- no-pop branch
    rw [if_neg hov]
    have hle : heap.length + 1 ≤ n := by
      rw [hlen'] at hov
      omega
    have hPlen : heap.length = P.length := by
      omega
    have hdropped0 : dropped = 0 := by
      have hcard := congrArg Multiset.card hP
      simp only [Multiset.coe_card, Multiset.card_add] at hcard
      rw [List.length_map] at hcard
      have : Multiset.card dropped = 0 := by omega
      exact Multiset.card_eq_zero.mp this
    refine ⟨hchain', hwf', ?_, 0, ?_, ?_⟩
    · rw [hlen']
      simp only [List.length_append, List.length_singleton]
      omega
    · rw [hrows']
      have h1 : ((P ++ [r] : List (Row V)) : Multiset (Row V)) =
          (P : Multiset (Row V)) + {r} := by
        rw [← Multiset.coe_add]
        simp
      rw [h1, hP, hdropped0]
      simp [Multiset.add_cons, Multiset.cons_add, Multiset.singleton_add,
        add_assoc, add_comm, add_left_comm]
    · intro d hd
      exact absurd hd (Multiset.not_mem_zero d)

theorem topn_fold_inv (column : String) (n : Nat) :
    ∀ (rows P : List (Row V)) (heap : List (V × Row V)),
      TopNInv column n P heap →
      TopNInv column n (P ++ rows) (rows.foldl (topnStep column n) heap)
  | [], P, heap, hinv => by simpa using hinv
  | r :: rest, P, heap, hinv => by
    have hstep := topnStep_inv column n P heap r hinv
    have hrec := topn_fold_inv column n rest (P ++ [r]) _ hstep
    simpa [List.append_assoc, List.foldl_cons] using hrec

theorem topn_inv_init (column : String) (n : Nat) :
    TopNInv column n ([] : List (Row V)) [] := by
  refine ⟨List.chain'_nil, by simp, by simp, 0, by simp, by simp⟩

theorem prodLt_false_fst {A B : Type} {lt1 : A → A → Bool} {lt2 : B → B → Bool}
    (a b : A × B) (h : prodLt lt1 lt2 a b = false) : lt1 a.1 b.1 = false := by
  by_cases h1 : lt1 a.1 b.1 = true
  · simp [prodLt, h1] at h
  · simpa using h1

end TopNInvariant

/-- **C8.** For every group of rows with mutually comparable values in the
ranked column, `TopN(col, n)` emits exactly `min n |group|` rows, each drawn
from the group, such that no omitted row has a strictly greater column value
than any emitted row — ties resolved by comparing the full row contents as a
secondary key (the heap entry order), emission order unspecified. -/
theorem topn_emits_largest_c8 {V : Type} [LinearOrder V] [Inhabited V]
    (column : String) (n : Nat) (rows : List (Row V))
    (hcols : ∀ r ∈ rows, (Row.find? r column).isSome = true) :
    (topnCall column n rows).length = min n rows.length ∧
    ((topnCall column n rows : List (Row V)) : Multiset (Row V)) ≤
      (rows : Multiset (Row V)) ∧
    (∀ o ∈ (rows : Multiset (Row V)) -
        ((topnCall column n rows : List (Row V)) : Multiset (Row V)),
      ∀ k ∈ topnCall column n rows,
        ¬ ((Row.find? k column).getD default < (Row.find? o column).getD default)) ∧
    (∀ o ∈ (rows : Multiset (Row V)) -
        ((topnCall column n rows : List (Row V)) : Multiset (Row V)),
      ∀ k ∈ topnCall column n rows,
        entryLt (entryOf column k) (entryOf column o) = false) := by
  have hinv : TopNInv column n rows (rows.foldl (topnStep column n) []) := by
    have := topn_fold_inv column n rows [] [] (topn_inv_init column n)
    simpa using this
  obtain ⟨hchain, hwf, hlen, dropped, hP, hdrop⟩ := hinv
  have hcall : topnCall column n rows =
      (rows.foldl (topnStep column n) []).map Prod.snd := rfl
  have hsub : (rows : Multiset (Row V)) -
      ((topnCall column n rows : List (Row V)) : Multiset (Row V)) = dropped := by
    rw [hcall, hP]
    exact add_tsub_cancel_right _ _
  have hmemk : ∀ k ∈ topnCall column n rows,
      entryOf column k ∈ rows.foldl (topnStep column n) [] := by
    intro k hk
    rw [hcall] at hk
    obtain ⟨z, hz, hzk⟩ := List.mem_map.mp hk
    have hzwf := hwf z hz
    rw [hzk] at hzwf
    rw [← hzwf]
    exact hz
  refine ⟨?_, ?_, ?_, ?_⟩
  · rw [hcall, List.length_map]
    exact hlen
  · rw [Multiset.le_iff_exists_add]
    exact ⟨dropped, by rw [hcall, hP]; exact add_comm _ _⟩
  · intro o ho k hk
    rw [hsub] at ho
    have hfalse : entryLt (entryOf column k) (entryOf column o) = false :=
      hdrop o ho (entryOf column k) (hmemk k hk)
    have hfst := prodLt_false_fst (entryOf column k) (entryOf column o) hfalse
    simpa [vLt, entryOf] using hfst
  · intro o ho k hk
    rw [hsub] at ho
    exact hdrop o ho (entryOf column k) (hmemk k hk)

theorem topn_emits_largest_c8_witness :
    ((topnCall "x" 1 [[("x", (1 : Int))], [("x", 2)], [("x", 3)]]).length =
      min 1 [[("x", (1 : Int))], [("x", 2)], [("x", 3)]].length) ∧
    ((topnCall "x" 1 [[("x", (1 : Int))], [("x", 2)], [("x", 3)]] :
        List (Row Int)) : Multiset (Row Int)) ≤
      ([[("x", (1 : Int))], [("x", 2)], [("x", 3)]] : List (Row Int)) ∧
    (∀ o ∈ (([[("x", (1 : Int))], [("x", 2)], [("x", 3)]] : List (Row Int)) :
          Multiset (Row Int)) -
        ((topnCall "x" 1 [[("x", (1 : Int))], [("x", 2)], [("x", 3)]] :
          List (Row Int)) : Multiset (Row Int)),
      ∀ k ∈ topnCall "x" 1 [[("x", (1 : Int))], [("x", 2)], [("x", 3)]],
        ¬ ((Row.find? k "x").getD default < (Row.find? o "x").getD default)) ∧
    (∀ o ∈ (([[("x", (1 : Int))], [("x", 2)], [("x", 3)]] : List (Row Int)) :
          Multiset (Row Int)) -
        ((topnCall "x" 1 [[("x", (1 : Int))], [("x", 2)], [("x", 3)]] :
          List (Row Int)) : Multiset (Row Int)),
      ∀ k ∈ topnCall "x" 1 [[("x", (1 : Int))], [("x", 2)], [("x", 3)]],
        entryLt (entryOf "x" k) (entryOf "x" o) = false) :=
  topn_emits_largest_c8 "x" 1 [[("x", (1 : Int))], [("x", 2)], [("x", 3)]]
    (by decide)

end Compgraph
